import Mathlib

/-!
# Verification of the `bookpurr` text chunker (`src/bookpurr/chunk_text.py`)

A shallow embedding of the chunking module.  Text is `List Char`; each
Python function is translated into an executable Lean function of the
same name.  Scanning functions that are not structurally recursive are
defined with an explicit fuel parameter (always called with fuel at
least the input length, which is shown sufficient), so that every
definition reduces in the kernel and concrete runs can be checked with
`decide`.  The `range(start, stop, step)` call in `split_mixed_text`
raises `ValueError` in Python when `step = 0`; fallible functions
therefore return `Except String _`.
-/

namespace Bookpurr

abbrev Text := List Char

/-- The apostrophe character (ASCII 39), written via `Char.ofNat`. -/
def apoC : Char := Char.ofNat 39

/-- Python `str.isspace` / regex `\s` for the characters this module can
meet: the Unicode whitespace set. -/
def isPySpace (c : Char) : Bool :=
  let n := c.toNat
  (9 ≤ n && n ≤ 13) || (28 ≤ n && n ≤ 32) || n = 133 || n = 160 ||
    n = 0x1680 || (0x2000 ≤ n && n ≤ 0x200A) || n = 0x2028 || n = 0x2029 ||
    n = 0x202F || n = 0x205F || n = 0x3000

/-- Regex class `[0-9]`. -/
def isDigitC (c : Char) : Bool := 48 ≤ c.toNat && c.toNat ≤ 57

/-- Regex class `[a-zA-Z0-9]`. -/
def isAlnumC (c : Char) : Bool :=
  (97 ≤ c.toNat && c.toNat ≤ 122) || (65 ≤ c.toNat && c.toNat ≤ 90) || isDigitC c

/-- Regex class `[一-鿿]` (CJK ideographs). -/
def isCJK (c : Char) : Bool := 0x4e00 ≤ c.toNat && c.toNat ≤ 0x9fff

/-- Regex class `[-']`, the joiners inside a Latin word run. -/
def isJoin (c : Char) : Bool := c = '-' || c = apoC

/-- The trailing-punctuation class `[.。,，!！?？;；:：]` of the Latin
alternative in `split_mixed_text`. -/
def classPunct : List Char :=
  ['.', '。', ',', '，', '!', '！', '?', '？', ';', '；', ':', '：']

/-- The CJK trailing-punctuation class `[。，！？；：]`. -/
def cjkPunct : List Char := ['。', '，', '！', '？', '；', '：']

/-- Python `str.lstrip()`. -/
def lstrip (t : Text) : Text := t.dropWhile isPySpace

/-- Python `str.strip()`. -/
def strip (t : Text) : Text :=
  ((t.dropWhile isPySpace).reverse.dropWhile isPySpace).reverse

/-- Python `str.split()` with no separator: split on whitespace runs,
dropping empty pieces.  `acc` holds the current word reversed. -/
def pySplitWsAux (acc : Text) : Text → List Text
  | [] => if acc.isEmpty then [] else [acc.reverse]
  | c :: rest =>
    if isPySpace c then
      if acc.isEmpty then pySplitWsAux [] rest
      else acc.reverse :: pySplitWsAux [] rest
    else pySplitWsAux (c :: acc) rest

def pySplitWs (t : Text) : List Text := pySplitWsAux [] t

/-- Is `sep` a prefix of `t`? -/
def listPfx : Text → Text → Bool
  | [], _ => true
  | _ :: _, [] => false
  | c :: cs, d :: ds => c = d && listPfx cs ds

/-- Leftmost occurrence of `sep` in `t`: the part before it and the part
after it. -/
def splitFirst (sep : Text) : Text → Option (Text × Text)
  | [] => none
  | c :: rest =>
    if listPfx sep (c :: rest) then some ([], (c :: rest).drop sep.length)
    else (splitFirst sep rest).map fun q => (c :: q.1, q.2)

/-- Python `str.split(sep)` for a non-empty separator (fuel-guarded; the
fuel used by `splitOnSep` is shown sufficient below). -/
def splitOnSepF : Nat → Text → Text → List Text
  | 0, _, t => [t]
  | b + 1, sep, t =>
    match splitFirst sep t with
    | none => [t]
    | some q => q.1 :: splitOnSepF b sep q.2

def splitOnSep (sep : Text) (t : Text) : List Text :=
  splitOnSepF (t.length + 1) sep t

/-- The optional decimal tail `(?:\.\d+)?` of a Latin word run. -/
def matchDecimal : Text → Text × Text
  | '.' :: c :: rest =>
    if isDigitC c then
      ('.' :: (c :: rest).takeWhile isDigitC, (c :: rest).dropWhile isDigitC)
    else ([], '.' :: c :: rest)
  | s => ([], s)

/-- The joiner tail `(?:[-'][a-zA-Z0-9]+)*` of a Latin word run
(fuel-guarded). -/
def matchJoinsF : Nat → Text → Text × Text
  | 0, s => ([], s)
  | b + 1, c :: d :: rest =>
    if isJoin c && isAlnumC d then
      ((c :: ((d :: rest).takeWhile isAlnumC ++
          (matchJoinsF b ((d :: rest).dropWhile isAlnumC)).1)),
        (matchJoinsF b ((d :: rest).dropWhile isAlnumC)).2)
    else ([], c :: d :: rest)
  | _ + 1, s => ([], s)

def matchJoins (s : Text) : Text × Text := matchJoinsF s.length s

/-- One Latin word run `[a-zA-Z0-9]+(?:\.\d+)?(?:[-'][a-zA-Z0-9]+)*`,
for input whose head is alphanumeric (checked by every caller). -/
def matchLatin (s : Text) : Text × Text :=
  let a := s.takeWhile isAlnumC
  let r1 := s.dropWhile isAlnumC
  let d := (matchDecimal r1).1
  let r2 := (matchDecimal r1).2
  ((a ++ d ++ (matchJoins r2).1), (matchJoins r2).2)

/-- `re.findall` of the `count_units` pattern
`([一-鿿]|[a-zA-Z0-9]+(?:\.\d+)?(?:[-'][a-zA-Z0-9]+)*)`:
scan left to right, preferring the CJK alternative, skipping one
character when neither alternative matches (fuel-guarded). -/
def findUnitsF : Nat → Text → List Text
  | 0, _ => []
  | _ + 1, [] => []
  | b + 1, c :: rest =>
    if isCJK c then [c] :: findUnitsF b rest
    else if isAlnumC c then
      (matchLatin (c :: rest)).1 :: findUnitsF b (matchLatin (c :: rest)).2
    else findUnitsF b rest

def findUnits (t : Text) : List Text := findUnitsF t.length t

/-- `count_units(text)` (`chunk_text.py` lines 6-20). -/
def count_units (t : Text) : Nat :=
  if (strip t).isEmpty then 0 else (findUnits t).length

/-! ## The punctuation segmenter `split_by_punct` -/

/-- One match of the sentence-end pattern
`(?<![0-9])[.。](?![0-9])|[?？!！]`: `prev` is the character before the
candidate, `next` the one after it. -/
def sentBoundary (prev : Option Char) (c : Char) (next : Option Char) : Bool :=
  if c = '?' || c = '？' || c = '!' || c = '！' then true
  else if c = '.' || c = '。' then
    (match prev with | some p => !isDigitC p | none => true) &&
    (match next with | some n => !isDigitC n | none => true)
  else false

/-- `finditer`-driven split of the `Pattern` branch of `split_by_punct`:
each match ends a piece (the matched character is kept); a non-empty
remainder becomes the final piece.  `acc` is the current piece
reversed. -/
def sentSegsAux : Option Char → Text → Text → List Text
  | _, acc, [] => if acc.isEmpty then [] else [acc.reverse]
  | prev, acc, c :: rest =>
    if sentBoundary prev c rest.head? then
      (c :: acc).reverse :: sentSegsAux (some c) [] rest
    else sentSegsAux (some c) (c :: acc) rest

/-- The `Pattern` branch of `split_by_punct` (lines 69-77): split at
sentence ends, strip each piece, drop blank pieces. -/
def sentSplit (t : Text) : List Text :=
  ((sentSegsAux none [] t).map strip).filter (fun s => !s.isEmpty)

/-- The `str` branch of `split_by_punct` (lines 79-82): split on the
literal separator; every piece but the last is stripped, gets the
separator re-appended, and is dropped when blank; the last piece is
stripped and always kept. -/
def splitStr (sep : Text) (t : Text) : List Text :=
  let parts := splitOnSep sep t
  (parts.dropLast.filterMap fun p =>
    if (strip p).isEmpty then none else some (strip p ++ sep)) ++
  [strip (parts.getLastD [])]

/-- A splitting punctuation: the sentence-end regex, or a literal
separator string. -/
inductive Punct
  | sentence
  | lit (sep : Text)
deriving DecidableEq

/-- `split_by_punct(text, punct)` (lines 67-82). -/
def split_by_punct : Punct → Text → List Text
  | .sentence, t => sentSplit t
  | .lit sep, t => splitStr sep t

/-! ## The hard fallback `split_mixed_text` -/

/-- The word chain `word(?:\s+word)*` of the Latin alternative in
`split_mixed_text` (fuel-guarded): the raw matched text (original
whitespace kept), the list of word runs in it, and the rest.  Another
word run is consumed as long as a non-empty whitespace run followed by
an alphanumeric character is there. -/
def latinChainF : Nat → Text → Text × List Text × Text
  | 0, s => ([], [], s)
  | b + 1, s =>
    let w := (matchLatin s).1
    let r := (matchLatin s).2
    let sp := r.takeWhile isPySpace
    let r' := r.dropWhile isPySpace
    match r'.head? with
    | some c =>
      if sp.isEmpty = false && isAlnumC c then
        ((w ++ sp ++ (latinChainF b r').1),
          (w :: (latinChainF b r').2.1), (latinChainF b r').2.2)
      else (w, [w], r)
    | none => (w, [w], r)

def latinChain (s : Text) : Text × List Text × Text := latinChainF s.length s

/-- One Latin segment of the `split_mixed_text` pattern:
`[a-zA-Z0-9]+(?:\.\d+)?(?:[-'][a-zA-Z0-9]+)*(?:\s+…)*[.。,，!！?？;；:：]?`,
for input whose head is alphanumeric. -/
def matchLatinSeg (s : Text) : Text × Text :=
  let chain := (latinChain s).1
  let r := (latinChain s).2.2
  match r.head? with
  | some c => if c ∈ classPunct then (chain ++ [c], r.tail) else (chain, r)
  | none => (chain, r)

/-- One CJK segment of the `split_mixed_text` pattern:
`[一-鿿]+[。，！？；：]?`, for input whose head is a CJK ideograph. -/
def matchCJKSeg (s : Text) : Text × Text :=
  let run := s.takeWhile isCJK
  let r := s.dropWhile isCJK
  match r.head? with
  | some c => if c ∈ cjkPunct then (run ++ [c], r.tail) else (run, r)
  | none => (run, r)

/-- `re.findall` of the `split_mixed_text` pattern (lines 209-215): the
Latin alternative is tried first, then the CJK one; other characters
are skipped (fuel-guarded). -/
def findSegsF : Nat → Text → List Text
  | 0, _ => []
  | _ + 1, [] => []
  | b + 1, c :: rest =>
    if isAlnumC c then
      (matchLatinSeg (c :: rest)).1 :: findSegsF b (matchLatinSeg (c :: rest)).2
    else if isCJK c then
      (matchCJKSeg (c :: rest)).1 :: findSegsF b (matchCJKSeg (c :: rest)).2
    else findSegsF b rest

def findSegs (t : Text) : List Text := findSegsF t.length t

/-- `re.search(r"[。，！？；：]$", segment)`: the trailing CJK
punctuation mark, as a (possibly empty) suffix to re-append. -/
def lastCjkPunct (seg : Text) : Text :=
  match seg.getLast? with
  | some c => if c ∈ cjkPunct then [c] else []
  | none => []

/-- The CJK windows `chars[i : i + max_len]` for
`i in range(0, len(chars), max_len)` with `max_len ≥ 1`; the trailing
punctuation `p` goes onto the final window only. -/
def cjkWindowsAux (m : Nat) (p : Text) (cur : Text) : Text → List Text
  | [] => if cur.isEmpty then [] else [cur.reverse ++ p]
  | c :: rest =>
    if cur.length + 1 = m then
      if rest.isEmpty then [(c :: cur).reverse ++ p]
      else (c :: cur).reverse :: cjkWindowsAux m p [] rest
    else cjkWindowsAux m p (c :: cur) rest

/-- The CJK branch of `split_mixed_text` (lines 218-228).  Python's
`range(0, len(chars), max_len)` raises `ValueError` when `max_len = 0`
and is empty when `max_len < 0`. -/
def cjkChunks (maxLen : Int) (seg : Text) : Except String (List Text) :=
  if maxLen = 0 then .error "ValueError: range() arg 3 must not be zero"
  else if maxLen < 0 then .ok []
  else .ok (cjkWindowsAux maxLen.toNat (lastCjkPunct seg) [] (seg.filter isCJK))

/-- Python `" ".join(pieces)`. -/
def joinSp : List Text → Text
  | [] => []
  | [w] => w
  | w :: x :: ws => w ++ ' ' :: joinSp (x :: ws)

/-- The English branch of `split_mixed_text` (lines 230-242): accumulate
words while the running chunk has fewer than `maxLen` of them. -/
def engAux (maxLen : Int) (cur : List Text) : List Text → List Text
  | [] => if cur.isEmpty then [] else [joinSp cur]
  | w :: ws =>
    if (cur.length : Int) < maxLen then engAux maxLen (cur ++ [w]) ws
    else joinSp cur :: engAux maxLen [w] ws

def engChunks (maxLen : Int) (seg : Text) : List Text :=
  engAux maxLen [] (pySplitWs seg)

/-- Chunk each segment: the CJK branch when the segment starts with a
CJK ideograph (`re.match(r"[一-鿿]", segment)`), the English branch
otherwise. -/
def splitSegs (maxLen : Int) : List Text → Except String (List Text)
  | [] => .ok []
  | seg :: rest => do
    let first ←
      match seg.head? with
      | some c => if isCJK c then cjkChunks maxLen seg else .ok (engChunks maxLen seg)
      | none => .ok (engChunks maxLen seg)
    let more ← splitSegs maxLen rest
    .ok (first ++ more)

/-- `split_mixed_text(text, max_len)` (lines 204-242). -/
def split_mixed_text (t : Text) (maxLen : Int) : Except String (List Text) :=
  if (strip t).isEmpty then .ok []
  else splitSegs maxLen ((findSegs t).filter fun s => !(strip s).isEmpty)

/-! ## The merge engine `merge_splits` -/

/-- `all_puncts` of the oversized branch (lines 103-113): the sentence
pattern, then the semicolon/colon literals, then the comma literals. -/
def allPuncts : List Punct :=
  [.sentence, .lit [';'], .lit [':'], .lit ['；'], .lit ['：'],
    .lit [','], .lit ['，']]

/-- One pass of lines 117-126: re-split every part that still exceeds
the budget at the given punctuation, keeping non-blank pieces. -/
def subsplitStep (maxU : Int) (parts : List Text) (p : Punct) : List Text :=
  parts.flatMap fun part =>
    if (count_units part : Int) > maxU then
      (split_by_punct p part).filter fun s => !(strip s).isEmpty
    else [part]

/-- Lines 115-126: successive re-splitting of one oversized split at
every punctuation mark. -/
def oversizedSubsplits (maxU : Int) (t : Text) : List Text :=
  allPuncts.foldl (subsplitStep maxU) [t]

/-- Lines 130-155: greedy recombination of the subsplits; a subsplit
that still exceeds the budget is sent to `split_mixed_text`. -/
def combineAux (maxU : Int) (cur : List Text) (curU : Nat) :
    List Text → Except String (List Text)
  | [] => .ok (if cur.isEmpty then [] else [joinSp cur])
  | s :: rest =>
    if (count_units s : Int) > maxU then do
      let mid ← split_mixed_text s maxU
      let post ← combineAux maxU [] 0 rest
      .ok ((if cur.isEmpty then [] else [joinSp cur]) ++ mid ++ post)
    else if (curU + count_units s : Int) ≤ maxU then
      combineAux maxU (cur ++ [s]) (curU + count_units s) rest
    else do
      let post ← combineAux maxU [s] (count_units s) rest
      .ok ((if cur.isEmpty then [] else [joinSp cur]) ++ post)

/-- Lines 160-173: extend the running combination with following splits
while the space-joined text stays within the budget, stopping at the
first overflow. -/
def greedyCombine (maxU : Int) (cur : Text) : List Text → Text × List Text
  | [] => (cur, [])
  | s :: rest =>
    if (count_units (cur ++ ' ' :: s) : Int) ≤ maxU then
      greedyCombine maxU (cur ++ ' ' :: s) rest
    else (cur, s :: rest)

/-- `merge_splits(splits)` (lines 84-180), fuel-guarded on the number of
splits still to process. -/
def merge_splitsF (maxU : Int) : Nat → List Text → Except String (List Text)
  | 0, _ => .ok []
  | _ + 1, [] => .ok []
  | b + 1, s :: rest =>
    if (count_units s : Int) > maxU then do
      let mid ← combineAux maxU [] 0 (oversizedSubsplits maxU s)
      let more ← merge_splitsF maxU b rest
      .ok (mid ++ more)
    else do
      let more ← merge_splitsF maxU b (greedyCombine maxU s rest).2
      .ok ((greedyCombine maxU s rest).1 :: more)

def merge_splits (maxU : Int) (splits : List Text) : Except String (List Text) :=
  merge_splitsF maxU splits.length splits

/-! ## The orchestrator `chunk_text` -/

/-- `punct_levels` (lines 58-65): paragraph break, sentence ends,
semicolons/colons, commas. -/
def punct_levels : List (List Punct) :=
  [[.lit ['\n', '\n']],
    [.sentence],
    [.lit [';'], .lit [':'], .lit ['；'], .lit ['：']],
    [.lit [','], .lit ['，']]]

/-- Lines 184-192: segment the text at one tier, applying the tier's
punctuation marks successively. -/
def applyLevel (level : List Punct) (t : Text) : List Text :=
  level.foldl (fun parts p => parts.flatMap (split_by_punct p)) [t]

/-- Lines 182-201: try each tier in order; accept the first tier that
produces more than one split and whose merge keeps every chunk within
the budget; otherwise fall back to `split_mixed_text`. -/
def tryLevels (maxU : Int) (text : Text) : List (List Punct) → Except String (List Text)
  | [] => split_mixed_text text maxU
  | level :: more =>
    let splits := applyLevel level text
    if splits.length > 1 then do
      let merged ← merge_splits maxU splits
      if merged.all (fun c => decide ((count_units c : Int) ≤ maxU)) then .ok merged
      else tryLevels maxU text more
    else tryLevels maxU text more

/-- `chunk_text(text, max_units)` (lines 23-201), with the generator's
yields collected into a list. -/
def chunk_text (t : Text) (maxU : Int) : Except String (List Text) :=
  let text := strip t
  if text.isEmpty then .ok []
  else if (count_units text : Int) ≤ maxU then .ok [text]
  else tryLevels maxU text punct_levels

/-- Coerce a string literal to the character-list text type. -/
def T (s : String) : Text := s.data

/-! ## Specification vocabulary

Predicates used to state and prove properties of the embedding. -/

/-- The ordered sequence of units of a list of texts, flattened. -/
def unitsOf (l : List Text) : List Text := l.flatMap findUnits

/-- A separator character that can neither start nor continue any unit:
not alphanumeric, not a CJK ideograph, not `.`, not a joiner. -/
def isBreakC (c : Char) : Bool :=
  !isAlnumC c && !isCJK c && !(c = '.') && !isJoin c

/-- No unit match can extend from the left into `y`: its head is not
alphanumeric, is not a `.` followed by a digit, and is not a joiner
followed by an alphanumeric character. -/
def headSafe : Text → Bool
  | [] => true
  | b :: y =>
    !isAlnumC b &&
    !(b = '.' && (match y.head? with | some d => isDigitC d | none => false)) &&
    !(isJoin b && (match y.head? with | some d => isAlnumC d | none => false))

/-- A character `q` ending the left part of a junction across which no
unit match can extend into `y`: not alphanumeric, not a joiner, and if
it is `.` then `y` does not start with a digit. -/
def wallAt (q : Char) (y : Text) : Prop :=
  isAlnumC q = false ∧ isJoin q = false ∧
    (q = '.' → ∀ d, y.head? = some d → isDigitC d = false)

/-- The shape of the optional decimal tail `(?:\.\d+)?`. -/
def DecShape (d : Text) : Prop :=
  d = [] ∨ ∃ ds, d = '.' :: ds ∧ ds ≠ [] ∧ ∀ x ∈ ds, isDigitC x = true

/-- The shape of the joiner tail `(?:[-'][a-zA-Z0-9]+)*`. -/
inductive JoinShape : Text → Prop
  | nil : JoinShape []
  | cons (c : Char) (a j : Text) : isJoin c = true → a ≠ [] →
      (∀ x ∈ a, isAlnumC x = true) → JoinShape j → JoinShape (c :: (a ++ j))

/-- The shape of one full Latin word run
`[a-zA-Z0-9]+(?:\.\d+)?(?:[-'][a-zA-Z0-9]+)*`. -/
def IsWordRun (u : Text) : Prop :=
  ∃ a d j, u = a ++ d ++ j ∧ a ≠ [] ∧ (∀ x ∈ a, isAlnumC x = true) ∧
    DecShape d ∧ JoinShape j

/-- A character that can appear in a `split_mixed_text` output chunk:
alphanumeric, whitespace, a word-run joiner or embedded period, a CJK
ideograph, or a trailing punctuation mark. -/
def allowedChar (c : Char) : Bool :=
  isAlnumC c || isPySpace c || c = '.' || isJoin c || isCJK c ||
    classPunct.contains c

/-- A token of the English branch: a Latin word run, optionally with
one trailing punctuation mark from the class. -/
def PyWord (w : Text) : Prop :=
  IsWordRun w ∨ ∃ u p, w = u ++ [p] ∧ IsWordRun u ∧ p ∈ classPunct

/-- Inventory of a Latin segment matched by `split_mixed_text`: its
words are word runs, the last token may carry one trailing punctuation
mark, and its units are exactly its words. -/
def LatinSeg (seg : Text) (u : List Text) : Prop :=
  ∃ ws w tp, u = ws ++ [w] ∧ (∀ v ∈ u, IsWordRun v) ∧
    (tp = [] ∨ ∃ p, tp = [p] ∧ p ∈ classPunct) ∧
    pySplitWs seg = ws ++ [w ++ tp] ∧ findUnits seg = u ∧
    (∃ e, seg.head? = some e ∧ isAlnumC e = true)

/-- Inventory of a CJK segment matched by `split_mixed_text`: a
non-empty ideograph run with at most one trailing CJK punctuation
mark. -/
def CJKSeg (seg : Text) : Prop :=
  ∃ run tp, seg = run ++ tp ∧ run ≠ [] ∧ (∀ c ∈ run, isCJK c = true) ∧
    (tp = [] ∨ ∃ p, tp = [p] ∧ p ∈ cjkPunct) ∧
    findUnits seg = run.map (fun c => [c])

/-- Shape of one chunk yielded by `split_mixed_text`: either space-joined
Latin tokens, each a word run with at most one trailing punctuation mark,
or a run of CJK ideographs with at most one trailing CJK punctuation
mark. -/
def MixedChunk (ch : Text) : Prop :=
  (∃ toks, toks ≠ [] ∧ (∀ w ∈ toks, PyWord w) ∧ ch = joinSp toks) ∨
  (∃ run tp, ch = run ++ tp ∧ run ≠ [] ∧ (∀ c ∈ run, isCJK c = true) ∧
    (tp = [] ∨ ∃ q, tp = [q] ∧ q ∈ cjkPunct))

/-- A literal separator whose characters are all break characters, so
that no unit match crosses any of its junctions; true of every literal
separator the program splits on. -/
def sepOK (sep : Text) : Prop := sep ≠ [] ∧ ∀ c ∈ sep, isBreakC c = true

/-- A punctuation splitter whose junctions are unit-safe: the sentence
pattern, or a literal separator made of break characters. -/
def PunctOK : Punct → Prop
  | .sentence => True
  | .lit sep => sepOK sep

/-! ## Character-class facts -/

theorem char_eq_of_toNat {c d : Char} (h : c.toNat = d.toNat) : c = d :=
  Char.ext (UInt32.ext h)

theorem char_ne_of_toNat {c d : Char} (h : c.toNat ≠ d.toNat) : c ≠ d :=
  fun he => h (by rw [he])

theorem isDigitC_alnum {c : Char} (h : isDigitC c = true) : isAlnumC c = true := by
  simp only [isDigitC, isAlnumC, Bool.and_eq_true, Bool.or_eq_true,
    decide_eq_true_eq] at *
  omega

theorem alnum_not_digit_dot {c : Char} (h : isAlnumC c = true) : c ≠ '.' := by
  intro he; rw [he] at h; exact absurd h (by decide)

theorem alnum_not_cjk {c : Char} (h : isAlnumC c = true) : isCJK c = false := by
  simp only [isAlnumC, isDigitC, isCJK, Bool.and_eq_true, Bool.or_eq_true,
    Bool.and_eq_false_iff, Bool.or_eq_false_iff, decide_eq_true_eq,
    decide_eq_false_iff_not] at *
  omega

theorem alnum_not_space {c : Char} (h : isAlnumC c = true) : isPySpace c = false := by
  simp only [isAlnumC, isDigitC, isPySpace, Bool.and_eq_true, Bool.or_eq_true,
    Bool.and_eq_false_iff, Bool.or_eq_false_iff, decide_eq_true_eq,
    decide_eq_false_iff_not] at *
  omega

theorem alnum_not_join {c : Char} (h : isAlnumC c = true) : isJoin c = false := by
  simp only [isJoin, Bool.or_eq_false_iff, decide_eq_false_iff_not]
  constructor <;> intro he <;> rw [he] at h <;> exact absurd h (by decide)

theorem cjk_not_alnum {c : Char} (h : isCJK c = true) : isAlnumC c = false := by
  cases ha : isAlnumC c
  · rfl
  · rw [alnum_not_cjk ha] at h; exact absurd h (by decide)

theorem space_not_alnum {c : Char} (h : isPySpace c = true) : isAlnumC c = false := by
  cases ha : isAlnumC c
  · rfl
  · rw [alnum_not_space ha] at h; exact absurd h (by decide)

theorem space_not_cjk {c : Char} (h : isPySpace c = true) : isCJK c = false := by
  simp only [isPySpace, isCJK, Bool.and_eq_true, Bool.or_eq_true,
    Bool.and_eq_false_iff, Bool.or_eq_false_iff, decide_eq_true_eq,
    decide_eq_false_iff_not] at *
  omega

theorem space_ne_dot {c : Char} (h : isPySpace c = true) : c ≠ '.' := by
  intro he; rw [he] at h; exact absurd h (by decide)

theorem space_not_join {c : Char} (h : isPySpace c = true) : isJoin c = false := by
  simp only [isJoin, Bool.or_eq_false_iff, decide_eq_false_iff_not]
  constructor <;> intro he <;> rw [he] at h <;> exact absurd h (by decide)

theorem space_break {c : Char} (h : isPySpace c = true) : isBreakC c = true := by
  simp only [isBreakC, Bool.and_eq_true, Bool.not_eq_true',
    decide_eq_false_iff_not]
  exact ⟨⟨⟨space_not_alnum h, space_not_cjk h⟩, space_ne_dot h⟩, space_not_join h⟩

theorem break_not_alnum {c : Char} (h : isBreakC c = true) : isAlnumC c = false := by
  simp only [isBreakC, Bool.and_eq_true, Bool.not_eq_true'] at h
  exact h.1.1.1

theorem break_not_cjk {c : Char} (h : isBreakC c = true) : isCJK c = false := by
  simp only [isBreakC, Bool.and_eq_true, Bool.not_eq_true'] at h
  exact h.1.1.2

theorem break_ne_dot {c : Char} (h : isBreakC c = true) : c ≠ '.' := by
  simp only [isBreakC, Bool.and_eq_true, Bool.not_eq_true',
    decide_eq_false_iff_not] at h
  exact h.1.2

theorem break_not_join {c : Char} (h : isBreakC c = true) : isJoin c = false := by
  simp only [isBreakC, Bool.and_eq_true, Bool.not_eq_true'] at h
  exact h.2

/-- A break character heads a junction no unit match crosses. -/
theorem break_headSafe {b : Char} (h : isBreakC b = true) (y : Text) :
    headSafe (b :: y) = true := by
  simp only [headSafe, Bool.and_eq_true, Bool.not_eq_true', Bool.and_eq_false_iff,
    decide_eq_false_iff_not]
  refine ⟨⟨break_not_alnum h, Or.inl (break_ne_dot h)⟩, Or.inl (break_not_join h)⟩

/-! ## takeWhile / dropWhile across an append -/

/-- If the head of `y` fails `p`, scanning `x ++ y` stops no later than
the junction. -/
theorem takeWhile_append_head {p : Char → Bool} {y : Text}
    (hy : ∀ b, y.head? = some b → p b = false) (x : Text) :
    (x ++ y).takeWhile p = x.takeWhile p := by
  induction x with
  | nil =>
    simp only [List.nil_append, List.takeWhile_nil]
    cases y with
    | nil => rfl
    | cons b ys => rw [List.takeWhile_cons_of_neg (by simp [hy b rfl])]
  | cons c xs ih =>
    cases hc : p c with
    | true =>
      rw [List.cons_append, List.takeWhile_cons_of_pos hc,
        List.takeWhile_cons_of_pos hc, ih]
    | false =>
      rw [List.cons_append, List.takeWhile_cons_of_neg (by simp [hc]),
        List.takeWhile_cons_of_neg (by simp [hc])]

theorem dropWhile_append_head {p : Char → Bool} {y : Text}
    (hy : ∀ b, y.head? = some b → p b = false) (x : Text) :
    (x ++ y).dropWhile p = x.dropWhile p ++ y := by
  induction x with
  | nil =>
    simp only [List.nil_append, List.dropWhile_nil]
    cases y with
    | nil => rfl
    | cons b ys => rw [List.dropWhile_cons_of_neg (by simp [hy b rfl])]
  | cons c xs ih =>
    cases hc : p c with
    | true =>
      rw [List.cons_append, List.dropWhile_cons_of_pos hc,
        List.dropWhile_cons_of_pos hc, ih]
    | false =>
      rw [List.cons_append, List.dropWhile_cons_of_neg (by simp [hc]),
        List.dropWhile_cons_of_neg (by simp [hc]), List.cons_append]

/-- If some element of `x` fails `p`, scanning `x ++ y` stops inside
`x`. -/
theorem takeWhile_append_inner {p : Char → Bool} {x : Text}
    (hx : ¬ ∀ c ∈ x, p c = true) (y : Text) :
    (x ++ y).takeWhile p = x.takeWhile p := by
  induction x with
  | nil => exact absurd (by intro c hc; cases hc) hx
  | cons c xs ih =>
    cases hc : p c with
    | true =>
      have hxs : ¬ ∀ a ∈ xs, p a = true := by
        intro hall
        refine hx (fun a ha => ?_)
        rw [List.mem_cons] at ha
        rcases ha with rfl | ha
        · exact hc
        · exact hall _ ha
      rw [List.cons_append, List.takeWhile_cons_of_pos hc,
        List.takeWhile_cons_of_pos hc, ih hxs]
    | false =>
      rw [List.cons_append, List.takeWhile_cons_of_neg (by simp [hc]),
        List.takeWhile_cons_of_neg (by simp [hc])]

theorem dropWhile_append_inner {p : Char → Bool} {x : Text}
    (hx : ¬ ∀ c ∈ x, p c = true) (y : Text) :
    (x ++ y).dropWhile p = x.dropWhile p ++ y := by
  induction x with
  | nil => exact absurd (by intro c hc; cases hc) hx
  | cons c xs ih =>
    cases hc : p c with
    | true =>
      have hxs : ¬ ∀ a ∈ xs, p a = true := by
        intro hall
        refine hx (fun a ha => ?_)
        rw [List.mem_cons] at ha
        rcases ha with rfl | ha
        · exact hc
        · exact hall _ ha
      rw [List.cons_append, List.dropWhile_cons_of_pos hc,
        List.dropWhile_cons_of_pos hc, ih hxs]
    | false =>
      rw [List.cons_append, List.dropWhile_cons_of_neg (by simp [hc]),
        List.dropWhile_cons_of_neg (by simp [hc]), List.cons_append]

/-- Scanning a list all of whose elements satisfy `p` continues past it. -/
theorem takeWhile_append_all {p : Char → Bool} {x : Text}
    (hx : ∀ c ∈ x, p c = true) (y : Text) :
    (x ++ y).takeWhile p = x ++ y.takeWhile p := by
  induction x with
  | nil => rfl
  | cons c xs ih =>
    rw [List.cons_append, List.takeWhile_cons_of_pos (hx c (by simp)),
      ih (fun a ha => hx a (by simp [ha])), List.cons_append]

theorem dropWhile_append_all {p : Char → Bool} {x : Text}
    (hx : ∀ c ∈ x, p c = true) (y : Text) :
    (x ++ y).dropWhile p = y.dropWhile p := by
  induction x with
  | nil => rfl
  | cons c xs ih =>
    rw [List.cons_append, List.dropWhile_cons_of_pos (hx c (by simp)),
      ih (fun a ha => hx a (by simp [ha]))]

theorem length_dropWhile_le (p : Char → Bool) (l : Text) :
    (l.dropWhile p).length ≤ l.length :=
  (List.dropWhile_suffix p).length_le

/-! ## `headSafe` accessors -/

theorem headSafe_alnum {b : Char} {y : Text} (h : headSafe (b :: y) = true) :
    isAlnumC b = false := by
  simp only [headSafe, Bool.and_eq_true, Bool.not_eq_true'] at h
  exact h.1.1

theorem headSafe_not_digit {b : Char} {y : Text}
    (h : headSafe (b :: y) = true) : isDigitC b = false := by
  cases hdg : isDigitC b
  · rfl
  · have h1 := headSafe_alnum h
    rw [isDigitC_alnum hdg] at h1
    simp at h1

theorem headSafe_dot {y : Text} (h : headSafe ('.' :: y) = true)
    {d : Char} (hd : y.head? = some d) : isDigitC d = false := by
  cases hdg : isDigitC d
  · rfl
  · exfalso
    simp only [headSafe, hd, hdg] at h
    simp at h

theorem headSafe_join {b : Char} {y : Text} (h : headSafe (b :: y) = true)
    (hb : isJoin b = true) {d : Char} (hd : y.head? = some d) :
    isAlnumC d = false := by
  cases hdg : isAlnumC d
  · rfl
  · exfalso
    simp only [headSafe, hd, hdg, hb] at h
    simp at h

/-! ## `matchDecimal` -/

theorem matchDecimal_nil : matchDecimal [] = ([], []) := rfl

theorem matchDecimal_one (c : Char) : matchDecimal [c] = ([], [c]) := by
  unfold matchDecimal
  split
  · rename_i heq; simp at heq
  · rfl

theorem matchDecimal_dot_digit {d : Char} (hd : isDigitC d = true) (rest : Text) :
    matchDecimal ('.' :: d :: rest) =
      ('.' :: (d :: rest).takeWhile isDigitC, (d :: rest).dropWhile isDigitC) := by
  simp [matchDecimal, hd]

theorem matchDecimal_dot_nondigit {d : Char} (hd : isDigitC d = false) (rest : Text) :
    matchDecimal ('.' :: d :: rest) = ([], '.' :: d :: rest) := by
  simp [matchDecimal, hd]

theorem matchDecimal_notdot {c : Char} (hc : c ≠ '.') (s : Text) :
    matchDecimal (c :: s) = ([], c :: s) := by
  cases s with
  | nil => exact matchDecimal_one c
  | cons d rest =>
    unfold matchDecimal
    split
    · rename_i heq
      injection heq with h1 _
      exact absurd h1 hc
    · rfl

theorem matchDecimal_decomp (s : Text) :
    (matchDecimal s).1 ++ (matchDecimal s).2 = s := by
  cases s with
  | nil => rfl
  | cons c s' =>
    by_cases hc : c = '.'
    · subst hc
      cases s' with
      | nil => rw [matchDecimal_one]; rfl
      | cons d rest =>
        cases hd : isDigitC d with
        | true =>
          rw [matchDecimal_dot_digit hd]
          simp [List.takeWhile_append_dropWhile]
        | false => rw [matchDecimal_dot_nondigit hd]; rfl
    · rw [matchDecimal_notdot hc]; rfl

theorem matchDecimal_snd_le (s : Text) :
    (matchDecimal s).2.length ≤ s.length := by
  have h := congrArg List.length (matchDecimal_decomp s)
  rw [List.length_append] at h
  omega

/-- The shape of the matched decimal tail. -/
theorem matchDecimal_shape (s : Text) : DecShape (matchDecimal s).1 := by
  cases s with
  | nil => exact Or.inl rfl
  | cons c s' =>
    by_cases hc : c = '.'
    · subst hc
      cases s' with
      | nil => rw [matchDecimal_one]; exact Or.inl rfl
      | cons d rest =>
        cases hd : isDigitC d with
        | true =>
          rw [matchDecimal_dot_digit hd]
          refine Or.inr ⟨(d :: rest).takeWhile isDigitC, rfl, ?_, ?_⟩
          · rw [List.takeWhile_cons_of_pos hd]; simp
          · intro x hx; exact List.mem_takeWhile_imp hx
        | false => rw [matchDecimal_dot_nondigit hd]; exact Or.inl rfl
    · rw [matchDecimal_notdot hc]; exact Or.inl rfl

/-- Appending text across a safe junction does not change the decimal
match. -/
theorem matchDecimal_commute {y : Text} (hy : headSafe y = true) (s : Text) :
    matchDecimal (s ++ y) = ((matchDecimal s).1, (matchDecimal s).2 ++ y) := by
  cases s with
  | nil =>
    simp only [List.nil_append, matchDecimal_nil]
    cases y with
    | nil => rfl
    | cons b ys =>
      by_cases hb : b = '.'
      · subst hb
        cases ys with
        | nil => exact matchDecimal_one '.'
        | cons d ys' =>
          exact matchDecimal_dot_nondigit (headSafe_dot hy rfl) ys'
      · exact matchDecimal_notdot hb ys
  | cons c s' =>
    by_cases hc : c = '.'
    · subst hc
      cases s' with
      | nil =>
        rw [matchDecimal_one]
        cases y with
        | nil => simp [matchDecimal_one]
        | cons d ys' =>
          simp only [List.singleton_append]
          exact matchDecimal_dot_nondigit (headSafe_not_digit hy) ys'
      | cons d rest =>
        have hys : ∀ b, y.head? = some b → isDigitC b = false := by
          intro b hb
          cases y with
          | nil => cases hb
          | cons b' ys' =>
            injection hb with hb; subst hb
            exact headSafe_not_digit hy
        cases hd : isDigitC d with
        | true =>
          have e1 : ('.' :: d :: rest) ++ y = '.' :: d :: (rest ++ y) := by simp
          rw [e1, matchDecimal_dot_digit hd, matchDecimal_dot_digit hd]
          have e2 : d :: (rest ++ y) = (d :: rest) ++ y := by simp
          rw [e2, takeWhile_append_head hys, dropWhile_append_head hys]
        | false =>
          have e1 : ('.' :: d :: rest) ++ y = '.' :: d :: (rest ++ y) := by simp
          rw [e1, matchDecimal_dot_nondigit hd, matchDecimal_dot_nondigit hd]
          simp
    · rw [matchDecimal_notdot hc, List.cons_append, matchDecimal_notdot hc]

/-! ## `matchJoins` -/

theorem headSafe_heads {y : Text} (hy : headSafe y = true) :
    ∀ b, y.head? = some b → isAlnumC b = false := by
  intro b hb
  cases y with
  | nil => cases hb
  | cons b' ys =>
    injection hb with hb; subst hb
    exact headSafe_alnum hy

theorem matchJoinsF_nil (b : Nat) : matchJoinsF b [] = ([], []) := by
  cases b <;> rfl

theorem matchJoinsF_one (b : Nat) (c : Char) : matchJoinsF b [c] = ([], [c]) := by
  cases b <;> rfl

theorem matchJoinsF_cons_pos {c d : Char} {rest : Text}
    (h : (isJoin c && isAlnumC d) = true) (b : Nat) :
    matchJoinsF (b + 1) (c :: d :: rest) =
      ((c :: ((d :: rest).takeWhile isAlnumC ++
          (matchJoinsF b ((d :: rest).dropWhile isAlnumC)).1)),
        (matchJoinsF b ((d :: rest).dropWhile isAlnumC)).2) := by
  simp [matchJoinsF, h]

theorem matchJoinsF_cons_neg {c d : Char} {rest : Text}
    (h : (isJoin c && isAlnumC d) = false) (b : Nat) :
    matchJoinsF (b + 1) (c :: d :: rest) = ([], c :: d :: rest) := by
  simp [matchJoinsF, h]

theorem matchJoinsF_congr :
    ∀ b₁ b₂ s, s.length ≤ b₁ → s.length ≤ b₂ →
      matchJoinsF b₁ s = matchJoinsF b₂ s := by
  intro b₁
  induction b₁ with
  | zero =>
    intro b₂ s h1 h2
    have hs : s = [] := List.eq_nil_of_length_eq_zero (Nat.le_zero.mp h1)
    subst hs
    rw [matchJoinsF_nil, matchJoinsF_nil]
  | succ b ih =>
    intro b₂ s h1 h2
    cases s with
    | nil => rw [matchJoinsF_nil, matchJoinsF_nil]
    | cons c s' =>
      cases s' with
      | nil => rw [matchJoinsF_one, matchJoinsF_one]
      | cons d rest =>
        cases b₂ with
        | zero => simp at h2
        | succ b₂' =>
          cases hcd : (isJoin c && isAlnumC d) with
          | true =>
            rw [matchJoinsF_cons_pos hcd, matchJoinsF_cons_pos hcd]
            have hd : isAlnumC d = true := (Bool.and_eq_true _ _).mp hcd |>.2
            have hr : ((d :: rest).dropWhile isAlnumC).length ≤ rest.length := by
              rw [List.dropWhile_cons_of_pos hd]
              exact length_dropWhile_le _ rest
            have hl1 : ((d :: rest).dropWhile isAlnumC).length ≤ b := by
              simp only [List.length_cons] at h1; omega
            have hl2 : ((d :: rest).dropWhile isAlnumC).length ≤ b₂' := by
              simp only [List.length_cons] at h2; omega
            rw [ih b₂' _ hl1 hl2]
          | false => rw [matchJoinsF_cons_neg hcd, matchJoinsF_cons_neg hcd]

theorem matchJoins_nil : matchJoins [] = ([], []) := rfl

theorem matchJoins_one (c : Char) : matchJoins [c] = ([], [c]) := rfl

theorem matchJoins_cons_pos {c d : Char} {rest : Text}
    (h : (isJoin c && isAlnumC d) = true) :
    matchJoins (c :: d :: rest) =
      ((c :: ((d :: rest).takeWhile isAlnumC ++
          (matchJoins ((d :: rest).dropWhile isAlnumC)).1)),
        (matchJoins ((d :: rest).dropWhile isAlnumC)).2) := by
  have hd : isAlnumC d = true := (Bool.and_eq_true _ _).mp h |>.2
  have hr : ((d :: rest).dropWhile isAlnumC).length ≤ rest.length := by
    rw [List.dropWhile_cons_of_pos hd]
    exact length_dropWhile_le _ rest
  show matchJoinsF (rest.length + 2) (c :: d :: rest) = _
  rw [matchJoinsF_cons_pos h,
    matchJoinsF_congr (rest.length + 1) ((d :: rest).dropWhile isAlnumC).length _
      (by omega) le_rfl]
  rfl

theorem matchJoins_cons_neg {c d : Char} {rest : Text}
    (h : (isJoin c && isAlnumC d) = false) :
    matchJoins (c :: d :: rest) = ([], c :: d :: rest) :=
  matchJoinsF_cons_neg h (rest.length + 1)

theorem matchJoinsF_decomp : ∀ b s, (matchJoinsF b s).1 ++ (matchJoinsF b s).2 = s := by
  intro b
  induction b with
  | zero => intro s; rfl
  | succ b ih =>
    intro s
    cases s with
    | nil => rw [matchJoinsF_nil]; rfl
    | cons c s' =>
      cases s' with
      | nil => rw [matchJoinsF_one]; rfl
      | cons d rest =>
        cases hcd : (isJoin c && isAlnumC d) with
        | true =>
          rw [matchJoinsF_cons_pos hcd]
          simp only [List.cons_append, List.append_assoc, ih,
            List.takeWhile_append_dropWhile]
        | false => rw [matchJoinsF_cons_neg hcd]; rfl

theorem matchJoins_decomp (s : Text) : (matchJoins s).1 ++ (matchJoins s).2 = s :=
  matchJoinsF_decomp s.length s

theorem matchJoins_snd_le (s : Text) : (matchJoins s).2.length ≤ s.length := by
  have h := congrArg List.length (matchJoins_decomp s)
  rw [List.length_append] at h
  omega

theorem matchJoinsF_shape : ∀ b s, JoinShape (matchJoinsF b s).1 := by
  intro b
  induction b with
  | zero => intro s; exact JoinShape.nil
  | succ b ih =>
    intro s
    cases s with
    | nil => rw [matchJoinsF_nil]; exact JoinShape.nil
    | cons c s' =>
      cases s' with
      | nil => rw [matchJoinsF_one]; exact JoinShape.nil
      | cons d rest =>
        cases hcd : (isJoin c && isAlnumC d) with
        | true =>
          rw [matchJoinsF_cons_pos hcd]
          have hj : isJoin c = true := (Bool.and_eq_true _ _).mp hcd |>.1
          have hd : isAlnumC d = true := (Bool.and_eq_true _ _).mp hcd |>.2
          refine JoinShape.cons c _ _ hj ?_ ?_ (ih _)
          · rw [List.takeWhile_cons_of_pos hd]; simp
          · intro x hx; exact List.mem_takeWhile_imp hx
        | false => rw [matchJoinsF_cons_neg hcd]; exact JoinShape.nil

theorem matchJoins_shape (s : Text) : JoinShape (matchJoins s).1 :=
  matchJoinsF_shape s.length s

theorem matchJoinsF_commute {y : Text} (hy : headSafe y = true) :
    ∀ b s, matchJoinsF b (s ++ y) = ((matchJoinsF b s).1, (matchJoinsF b s).2 ++ y) := by
  intro b
  induction b with
  | zero => intro s; rfl
  | succ b ih =>
    intro s
    cases s with
    | nil =>
      simp only [List.nil_append, matchJoinsF_nil]
      cases y with
      | nil => rw [matchJoinsF_nil]
      | cons c ys =>
        cases ys with
        | nil => rw [matchJoinsF_one]
        | cons d ys' =>
          have hcd : (isJoin c && isAlnumC d) = false := by
            cases hj : isJoin c with
            | false => simp [hj]
            | true => simp [hj, headSafe_join hy hj rfl]
          rw [matchJoinsF_cons_neg hcd]
    | cons c s' =>
      cases s' with
      | nil =>
        rw [matchJoinsF_one]
        cases y with
        | nil => simp [matchJoinsF_one]
        | cons e ys =>
          have hcd : (isJoin c && isAlnumC e) = false := by
            rw [headSafe_alnum hy]; simp
          simp only [List.singleton_append, List.cons_append, List.nil_append]
          rw [matchJoinsF_cons_neg hcd]
      | cons d rest =>
        cases hcd : (isJoin c && isAlnumC d) with
        | true =>
          have e1 : (c :: d :: rest) ++ y = c :: d :: (rest ++ y) := by simp
          have e2 : d :: (rest ++ y) = (d :: rest) ++ y := by simp
          rw [e1, matchJoinsF_cons_pos hcd, matchJoinsF_cons_pos hcd, e2,
            takeWhile_append_head (fun b hb => headSafe_heads hy b hb),
            dropWhile_append_head (fun b hb => headSafe_heads hy b hb), ih]
        | false =>
          have e1 : (c :: d :: rest) ++ y = c :: d :: (rest ++ y) := by simp
          rw [e1, matchJoinsF_cons_neg hcd, matchJoinsF_cons_neg hcd]
          simp

theorem matchJoins_commute {y : Text} (hy : headSafe y = true) (s : Text) :
    matchJoins (s ++ y) = ((matchJoins s).1, (matchJoins s).2 ++ y) := by
  show matchJoinsF (s ++ y).length (s ++ y) = _
  rw [matchJoinsF_commute hy, matchJoinsF_congr (s ++ y).length s.length s
    (by simp) le_rfl]
  rfl

/-! ## `matchLatin` -/

theorem matchLatin_fst (s : Text) :
    (matchLatin s).1 = s.takeWhile isAlnumC ++
      (matchDecimal (s.dropWhile isAlnumC)).1 ++
      (matchJoins (matchDecimal (s.dropWhile isAlnumC)).2).1 := rfl

theorem matchLatin_snd (s : Text) :
    (matchLatin s).2 = (matchJoins (matchDecimal (s.dropWhile isAlnumC)).2).2 := rfl

theorem matchLatin_decomp (s : Text) : (matchLatin s).1 ++ (matchLatin s).2 = s := by
  rw [matchLatin_fst, matchLatin_snd, List.append_assoc, List.append_assoc,
    matchJoins_decomp, matchDecimal_decomp, List.takeWhile_append_dropWhile]

theorem matchLatin_snd_le (s : Text) : (matchLatin s).2.length ≤ s.length := by
  have h := congrArg List.length (matchLatin_decomp s)
  rw [List.length_append] at h
  omega

theorem matchLatin_snd_le_cons {c : Char} (hc : isAlnumC c = true) (rest : Text) :
    (matchLatin (c :: rest)).2.length ≤ rest.length := by
  rw [matchLatin_snd, List.dropWhile_cons_of_pos hc]
  calc (matchJoins (matchDecimal (rest.dropWhile isAlnumC)).2).2.length
      ≤ (matchDecimal (rest.dropWhile isAlnumC)).2.length := matchJoins_snd_le _
    _ ≤ (rest.dropWhile isAlnumC).length := matchDecimal_snd_le _
    _ ≤ rest.length := length_dropWhile_le _ _

theorem matchLatin_shape {c : Char} (hc : isAlnumC c = true) (rest : Text) :
    IsWordRun (matchLatin (c :: rest)).1 := by
  rw [matchLatin_fst]
  refine ⟨(c :: rest).takeWhile isAlnumC,
    (matchDecimal ((c :: rest).dropWhile isAlnumC)).1,
    (matchJoins (matchDecimal ((c :: rest).dropWhile isAlnumC)).2).1,
    rfl, ?_, ?_, matchDecimal_shape _, matchJoins_shape _⟩
  · rw [List.takeWhile_cons_of_pos hc]; simp
  · intro x hx; exact List.mem_takeWhile_imp hx

theorem matchLatin_commute_fst {y : Text} (hy : headSafe y = true) (s : Text) :
    (matchLatin (s ++ y)).1 = (matchLatin s).1 := by
  have hh : ∀ b, y.head? = some b → isAlnumC b = false := headSafe_heads hy
  rw [matchLatin_fst, matchLatin_fst, takeWhile_append_head hh,
    dropWhile_append_head hh, matchDecimal_commute hy, matchJoins_commute hy]

theorem matchLatin_commute_snd {y : Text} (hy : headSafe y = true) (s : Text) :
    (matchLatin (s ++ y)).2 = (matchLatin s).2 ++ y := by
  have hh : ∀ b, y.head? = some b → isAlnumC b = false := headSafe_heads hy
  rw [matchLatin_snd, matchLatin_snd, dropWhile_append_head hh,
    matchDecimal_commute hy, matchJoins_commute hy]

/-! ## `findUnits` -/

theorem findUnitsF_succ_cjk {c : Char} (hc : isCJK c = true) (b : Nat) (rest : Text) :
    findUnitsF (b + 1) (c :: rest) = [c] :: findUnitsF b rest := by
  simp [findUnitsF, hc]

theorem findUnitsF_succ_alnum {c : Char} (hc : isAlnumC c = true) (b : Nat)
    (rest : Text) : findUnitsF (b + 1) (c :: rest) =
      (matchLatin (c :: rest)).1 :: findUnitsF b (matchLatin (c :: rest)).2 := by
  simp [findUnitsF, alnum_not_cjk hc, hc]

theorem findUnitsF_succ_skip {c : Char} (h1 : isCJK c = false)
    (h2 : isAlnumC c = false) (b : Nat) (rest : Text) :
    findUnitsF (b + 1) (c :: rest) = findUnitsF b rest := by
  simp [findUnitsF, h1, h2]

theorem findUnitsF_congr :
    ∀ b₁ b₂ s, s.length ≤ b₁ → s.length ≤ b₂ →
      findUnitsF b₁ s = findUnitsF b₂ s := by
  intro b₁
  induction b₁ with
  | zero =>
    intro b₂ s h1 h2
    have hs : s = [] := List.eq_nil_of_length_eq_zero (Nat.le_zero.mp h1)
    subst hs
    cases b₂ <;> rfl
  | succ b ih =>
    intro b₂ s h1 h2
    cases s with
    | nil => cases b₂ <;> rfl
    | cons c rest =>
      cases b₂ with
      | zero => simp at h2
      | succ b₂' =>
        simp only [List.length_cons] at h1 h2
        cases hcj : isCJK c with
        | true =>
          rw [findUnitsF_succ_cjk hcj, findUnitsF_succ_cjk hcj,
            ih b₂' rest (by omega) (by omega)]
        | false =>
          cases hal : isAlnumC c with
          | true =>
            have hr := matchLatin_snd_le_cons hal rest
            rw [findUnitsF_succ_alnum hal, findUnitsF_succ_alnum hal,
              ih b₂' _ (by omega) (by omega)]
          | false =>
            rw [findUnitsF_succ_skip hcj hal, findUnitsF_succ_skip hcj hal,
              ih b₂' rest (by omega) (by omega)]

theorem findUnits_nil : findUnits [] = [] := rfl

theorem findUnits_cjk {c : Char} (hc : isCJK c = true) (rest : Text) :
    findUnits (c :: rest) = [c] :: findUnits rest := by
  show findUnitsF (rest.length + 1) (c :: rest) = _
  rw [findUnitsF_succ_cjk hc]
  rfl

theorem findUnits_alnum {c : Char} (hc : isAlnumC c = true) (rest : Text) :
    findUnits (c :: rest) =
      (matchLatin (c :: rest)).1 :: findUnits (matchLatin (c :: rest)).2 := by
  show findUnitsF (rest.length + 1) (c :: rest) = _
  rw [findUnitsF_succ_alnum hc,
    findUnitsF_congr rest.length (matchLatin (c :: rest)).2.length _
      (matchLatin_snd_le_cons hc rest) le_rfl]
  rfl

theorem findUnits_skip {c : Char} (h1 : isCJK c = false) (h2 : isAlnumC c = false)
    (rest : Text) : findUnits (c :: rest) = findUnits rest := by
  show findUnitsF (rest.length + 1) (c :: rest) = _
  rw [findUnitsF_succ_skip h1 h2]
  rfl

/-- The central scan lemma: across a junction whose right side no unit
match can enter, `findUnits` decomposes. -/
theorem findUnits_append {y : Text} (hy : headSafe y = true) :
    ∀ n x, x.length ≤ n → findUnits (x ++ y) = findUnits x ++ findUnits y := by
  intro n
  induction n with
  | zero =>
    intro x hx
    have hn : x = [] := List.eq_nil_of_length_eq_zero (Nat.le_zero.mp hx)
    subst hn
    rfl
  | succ n ih =>
    intro x hx
    cases x with
    | nil => rfl
    | cons c x' =>
      simp only [List.length_cons] at hx
      have e1 : (c :: x') ++ y = c :: (x' ++ y) := rfl
      cases hcj : isCJK c with
      | true =>
        rw [e1, findUnits_cjk hcj (x' ++ y), findUnits_cjk hcj x',
          ih x' (by omega), List.cons_append]
      | false =>
        cases hal : isAlnumC c with
        | true =>
          have h1 : (matchLatin (c :: (x' ++ y))).1 = (matchLatin (c :: x')).1 := by
            rw [← e1, matchLatin_commute_fst hy]
          have h2 : (matchLatin (c :: (x' ++ y))).2 = (matchLatin (c :: x')).2 ++ y := by
            rw [← e1, matchLatin_commute_snd hy]
          rw [e1, findUnits_alnum hal (x' ++ y), h1, h2, findUnits_alnum hal x',
            ih (matchLatin (c :: x')).2
              (le_trans (matchLatin_snd_le_cons hal x') (by omega)),
            List.cons_append]
        | false =>
          rw [e1, findUnits_skip hcj hal (x' ++ y), findUnits_skip hcj hal x',
            ih x' (by omega)]

theorem findUnits_append_of_headSafe {y : Text} (hy : headSafe y = true) (x : Text) :
    findUnits (x ++ y) = findUnits x ++ findUnits y :=
  findUnits_append hy x.length x le_rfl

/-! ## Sealed junctions (a wall character ends the left part) -/

theorem mem_getLast? {l : Text} {q : Char} (h : l.getLast? = some q) : q ∈ l := by
  cases l with
  | nil => cases h
  | cons c l' =>
    rw [List.getLast?_eq_getLast (c :: l') (by simp)] at h
    injection h with h
    rw [← h]
    exact List.getLast_mem _

theorem getLast?_cons₂ (a b : Char) (l : Text) :
    (a :: b :: l).getLast? = (b :: l).getLast? := List.getLast?_cons_cons

theorem digit_false_of_alnum_false {c : Char} (h : isAlnumC c = false) :
    isDigitC c = false := by
  cases hd : isDigitC c
  · rfl
  · rw [isDigitC_alnum hd] at h; simp at h

theorem dropWhile_getLast {p : Char → Bool} {x : Text} {q : Char}
    (hlast : x.getLast? = some q) (hpq : p q = false) :
    (x.dropWhile p).getLast? = some q ∧ x.dropWhile p ≠ [] := by
  have hne : x.dropWhile p ≠ [] := by
    intro he
    have hall : ∀ c ∈ x, p c = true := by
      rw [← @List.takeWhile_append_dropWhile _ p x, he, List.append_nil]
      intro c hc
      exact List.mem_takeWhile_imp hc
    have := hall q (mem_getLast? hlast)
    rw [hpq] at this
    cases this
  constructor
  · have hd : x = x.takeWhile p ++ x.dropWhile p :=
      (List.takeWhile_append_dropWhile p x).symm
    rw [hd, List.getLast?_append] at hlast
    cases hgl : (x.dropWhile p).getLast? with
    | none =>
      exfalso
      cases hx : x.dropWhile p with
      | nil => exact hne hx
      | cons a l' =>
        rw [hx, List.getLast?_eq_getLast (a :: l') (by simp)] at hgl
        cases hgl
    | some r =>
      rw [hgl] at hlast
      simp only [Option.or_some] at hlast
      exact hlast
  · exact hne

theorem not_all_of_getLast {p : Char → Bool} {x : Text} {q : Char}
    (hlast : x.getLast? = some q) (hpq : p q = false) :
    ¬ ∀ c ∈ x, p c = true := by
  intro hall
  have := hall q (mem_getLast? hlast)
  rw [hpq] at this
  cases this

theorem matchDecimal_sealed {q : Char} {y s : Text} (hlast : s.getLast? = some q)
    (hq1 : isAlnumC q = false)
    (hq3 : q = '.' → ∀ d, y.head? = some d → isDigitC d = false) :
    matchDecimal (s ++ y) = ((matchDecimal s).1, (matchDecimal s).2 ++ y) ∧
      (matchDecimal s).2.getLast? = some q := by
  cases s with
  | nil => cases hlast
  | cons c s' =>
    cases s' with
    | nil =>
      have hc : c = q := by simpa using hlast
      subst hc
      by_cases hdot : c = '.'
      · subst hdot
        rw [matchDecimal_one]
        refine ⟨?_, by simp⟩
        cases y with
        | nil => simp [matchDecimal_one]
        | cons d ys =>
          simp only [List.singleton_append]
          exact matchDecimal_dot_nondigit (hq3 rfl d rfl) ys
      · rw [matchDecimal_notdot hdot]
        refine ⟨?_, by simp⟩
        cases y with
        | nil => simp [matchDecimal_notdot hdot]
        | cons d ys =>
          simp only [List.singleton_append]
          rw [matchDecimal_notdot hdot]
    | cons d rest =>
      have hlast' : (d :: rest).getLast? = some q := by
        rw [← getLast?_cons₂ c d rest]; exact hlast
      by_cases hdot : c = '.'
      · subst hdot
        cases hd : isDigitC d with
        | true =>
          have hqd : isDigitC q = false := digit_false_of_alnum_false hq1
          have e1 : ('.' :: d :: rest) ++ y = '.' :: d :: (rest ++ y) := by simp
          have e2 : d :: (rest ++ y) = (d :: rest) ++ y := by simp
          have hnall := not_all_of_getLast hlast' hqd
          rw [e1, matchDecimal_dot_digit hd, matchDecimal_dot_digit hd, e2,
            takeWhile_append_inner hnall, dropWhile_append_inner hnall]
          exact ⟨rfl, (dropWhile_getLast hlast' hqd).1⟩
        | false =>
          have e1 : ('.' :: d :: rest) ++ y = '.' :: d :: (rest ++ y) := by simp
          rw [e1, matchDecimal_dot_nondigit hd, matchDecimal_dot_nondigit hd]
          exact ⟨by simp, hlast⟩
      · have e1 : (c :: d :: rest) ++ y = c :: ((d :: rest) ++ y) := by simp
        rw [e1, matchDecimal_notdot hdot, matchDecimal_notdot hdot]
        exact ⟨by simp, hlast⟩

theorem matchJoinsF_sealed {q : Char} (y : Text)
    (hq1 : isAlnumC q = false) (hq2 : isJoin q = false) :
    ∀ b s, s.getLast? = some q →
      matchJoinsF b (s ++ y) = ((matchJoinsF b s).1, (matchJoinsF b s).2 ++ y) ∧
        (matchJoinsF b s).2.getLast? = some q := by
  intro b
  induction b with
  | zero => intro s hlast; exact ⟨rfl, hlast⟩
  | succ b ih =>
    intro s hlast
    cases s with
    | nil => cases hlast
    | cons c s' =>
      cases s' with
      | nil =>
        have hc : c = q := by simpa using hlast
        subst hc
        rw [matchJoinsF_one]
        refine ⟨?_, by simp⟩
        cases y with
        | nil => simp [matchJoinsF_one]
        | cons e ys =>
          have hcd : (isJoin c && isAlnumC e) = false := by rw [hq2]; simp
          simp only [List.singleton_append]
          rw [matchJoinsF_cons_neg hcd]
      | cons d rest =>
        have hlast' : (d :: rest).getLast? = some q := by
          rw [← getLast?_cons₂ c d rest]; exact hlast
        cases hcd : (isJoin c && isAlnumC d) with
        | true =>
          have hd : isAlnumC d = true := (Bool.and_eq_true _ _).mp hcd |>.2
          have hrne : rest ≠ [] := by
            intro he
            subst he
            have : d = q := by simpa using hlast'
            subst this
            rw [hq1] at hd
            cases hd
          have hnall := not_all_of_getLast hlast' hq1
          have e1 : (c :: d :: rest) ++ y = c :: d :: (rest ++ y) := by simp
          have e2 : d :: (rest ++ y) = (d :: rest) ++ y := by simp
          obtain ⟨hgl, hne⟩ := dropWhile_getLast hlast' hq1
          obtain ⟨hihc, hihl⟩ := ih ((d :: rest).dropWhile isAlnumC) hgl
          rw [e1, matchJoinsF_cons_pos hcd, matchJoinsF_cons_pos hcd, e2,
            takeWhile_append_inner hnall, dropWhile_append_inner hnall, hihc]
          exact ⟨rfl, hihl⟩
        | false =>
          have e1 : (c :: d :: rest) ++ y = c :: d :: (rest ++ y) := by simp
          rw [e1, matchJoinsF_cons_neg hcd, matchJoinsF_cons_neg hcd]
          exact ⟨by simp, hlast⟩

theorem matchJoins_sealed {q : Char} (y : Text) {s : Text}
    (hlast : s.getLast? = some q)
    (hq1 : isAlnumC q = false) (hq2 : isJoin q = false) :
    matchJoins (s ++ y) = ((matchJoins s).1, (matchJoins s).2 ++ y) ∧
      (matchJoins s).2.getLast? = some q := by
  have h := matchJoinsF_sealed y hq1 hq2 (s ++ y).length s hlast
  refine ⟨?_, ?_⟩
  · show matchJoinsF (s ++ y).length (s ++ y) = _
    rw [h.1, matchJoinsF_congr (s ++ y).length s.length s (by simp) le_rfl]
    rfl
  · show (matchJoinsF s.length s).2.getLast? = some q
    rw [← matchJoinsF_congr (s ++ y).length s.length s (by simp) le_rfl]
    exact h.2

theorem matchLatin_sealed {q : Char} {y s : Text} (hlast : s.getLast? = some q)
    (hq1 : isAlnumC q = false) (hq2 : isJoin q = false)
    (hq3 : q = '.' → ∀ d, y.head? = some d → isDigitC d = false) :
    (matchLatin (s ++ y)).1 = (matchLatin s).1 ∧
      (matchLatin (s ++ y)).2 = (matchLatin s).2 ++ y ∧
      (matchLatin s).2.getLast? = some q := by
  have hnall := not_all_of_getLast hlast hq1
  obtain ⟨hgl, hne⟩ := dropWhile_getLast hlast hq1
  obtain ⟨hmd, hmdl⟩ := matchDecimal_sealed hgl hq1 hq3
  obtain ⟨hmj, hmjl⟩ := matchJoins_sealed y hmdl hq1 hq2
  refine ⟨?_, ?_, ?_⟩
  · rw [matchLatin_fst, matchLatin_fst, takeWhile_append_inner hnall,
      dropWhile_append_inner hnall, hmd, hmj]
  · rw [matchLatin_snd, matchLatin_snd, dropWhile_append_inner hnall, hmd, hmj]
  · rw [matchLatin_snd]
    exact hmjl

/-- The wall lemma: when the left part ends with a character no unit
match can contain (given the digit guard for `.`), `findUnits`
decomposes across the junction. -/
theorem findUnits_wall {q : Char} {y : Text}
    (hq1 : isAlnumC q = false) (hq2 : isJoin q = false)
    (hq3 : q = '.' → ∀ d, y.head? = some d → isDigitC d = false) :
    ∀ n x, x.length ≤ n → x.getLast? = some q →
      findUnits (x ++ y) = findUnits x ++ findUnits y := by
  intro n
  induction n with
  | zero =>
    intro x hx hlast
    have hn : x = [] := List.eq_nil_of_length_eq_zero (Nat.le_zero.mp hx)
    subst hn
    cases hlast
  | succ n ih =>
    intro x hx hlast
    cases x with
    | nil => cases hlast
    | cons c x' =>
      simp only [List.length_cons] at hx
      have e1 : (c :: x') ++ y = c :: (x' ++ y) := rfl
      cases x' with
      | nil =>
        have hc : c = q := by simpa using hlast
        subst hc
        cases hcj : isCJK c with
        | true =>
          rw [e1, findUnits_cjk hcj, findUnits_cjk hcj, findUnits_nil,
            List.nil_append, List.cons_append, List.nil_append]
        | false =>
          rw [e1, findUnits_skip hcj hq1, findUnits_skip hcj hq1, findUnits_nil,
            List.nil_append, List.nil_append]
      | cons c₂ x'' =>
        have hlast' : (c₂ :: x'').getLast? = some q := by
          rw [← getLast?_cons₂ c c₂ x'']; exact hlast
        cases hcj : isCJK c with
        | true =>
          rw [e1, findUnits_cjk hcj, findUnits_cjk hcj,
            ih (c₂ :: x'') (by simp only [List.length_cons] at hx ⊢; omega) hlast',
            List.cons_append]
        | false =>
          cases hal : isAlnumC c with
          | true =>
            obtain ⟨hm1, hm2, hm3⟩ := matchLatin_sealed hlast hq1 hq2 hq3
            rw [e1, findUnits_alnum hal]
            rw [← e1, hm1, hm2, findUnits_alnum hal,
              ih (matchLatin (c :: c₂ :: x'')).2
                (le_trans (matchLatin_snd_le_cons hal _) (by omega)) hm3,
              List.cons_append]
          | false =>
            rw [e1, findUnits_skip hcj hal, findUnits_skip hcj hal,
              ih (c₂ :: x'') (by simp only [List.length_cons] at hx ⊢; omega) hlast']

/-! ## Units through whitespace and `strip` -/

theorem findUnits_break_lead {sp : Text} (h : ∀ c ∈ sp, isBreakC c = true) :
    ∀ z, findUnits (sp ++ z) = findUnits z := by
  induction sp with
  | nil => intro z; rfl
  | cons c sp' ih =>
    intro z
    have hc := h c (by simp)
    rw [List.cons_append, findUnits_skip (break_not_cjk hc) (break_not_alnum hc),
      ih (fun a ha => h a (by simp [ha]))]

theorem findUnits_space_lead {sp : Text} (h : ∀ c ∈ sp, isPySpace c = true)
    (z : Text) : findUnits (sp ++ z) = findUnits z :=
  findUnits_break_lead (fun c hc => space_break (h c hc)) z

theorem findUnits_all_space {t : Text} (h : ∀ c ∈ t, isPySpace c = true) :
    findUnits t = [] := by
  have := findUnits_space_lead h []
  rwa [List.append_nil] at this

theorem headSafe_all_space {post : Text} (h : ∀ c ∈ post, isPySpace c = true) :
    headSafe post = true := by
  cases post with
  | nil => rfl
  | cons c ps => exact break_headSafe (space_break (h c (by simp))) ps

theorem strip_decomp (t : Text) :
    ∃ pre post, t = pre ++ strip t ++ post ∧
      (∀ c ∈ pre, isPySpace c = true) ∧ (∀ c ∈ post, isPySpace c = true) := by
  refine ⟨t.takeWhile isPySpace,
    ((t.dropWhile isPySpace).reverse.takeWhile isPySpace).reverse, ?_, ?_, ?_⟩
  · conv_lhs => rw [← List.takeWhile_append_dropWhile isPySpace t]
    rw [List.append_assoc]
    congr 1
    show t.dropWhile isPySpace = strip t ++ _
    conv_lhs => rw [← List.reverse_reverse (t.dropWhile isPySpace),
      ← List.takeWhile_append_dropWhile isPySpace (t.dropWhile isPySpace).reverse,
      List.reverse_append]
    rfl
  · intro c hc; exact List.mem_takeWhile_imp hc
  · intro c hc
    rw [List.mem_reverse] at hc
    exact List.mem_takeWhile_imp hc

theorem findUnits_strip (t : Text) : findUnits (strip t) = findUnits t := by
  obtain ⟨pre, post, hdec, hpre, hpost⟩ := strip_decomp t
  conv_rhs => rw [hdec]
  rw [List.append_assoc, findUnits_space_lead hpre,
    findUnits_append_of_headSafe (headSafe_all_space hpost),
    findUnits_all_space hpost, List.append_nil]

theorem count_units_len (t : Text) : count_units t = (findUnits t).length := by
  unfold count_units
  cases he : (strip t).isEmpty
  · rfl
  · rw [if_pos rfl]
    have h0 : strip t = [] := List.isEmpty_iff.mp he
    rw [← findUnits_strip t, h0]
    rfl

theorem count_units_strip (t : Text) : count_units (strip t) = count_units t := by
  rw [count_units_len, count_units_len, findUnits_strip]

theorem headSafe_space_cons (y : Text) : headSafe (' ' :: y) = true :=
  break_headSafe (by decide) y

theorem findUnits_space_cons (y : Text) : findUnits (' ' :: y) = findUnits y :=
  findUnits_skip (by decide) (by decide) y

theorem findUnits_join_space (x y : Text) :
    findUnits (x ++ ' ' :: y) = findUnits x ++ findUnits y := by
  rw [findUnits_append_of_headSafe (headSafe_space_cons y), findUnits_space_cons]

theorem unitsOf_nil : unitsOf [] = [] := rfl

theorem unitsOf_cons (w : Text) (l : List Text) :
    unitsOf (w :: l) = findUnits w ++ unitsOf l := List.flatMap_cons w l _

theorem unitsOf_append (l₁ l₂ : List Text) :
    unitsOf (l₁ ++ l₂) = unitsOf l₁ ++ unitsOf l₂ := List.flatMap_append l₁ l₂ _

theorem findUnits_joinSp (l : List Text) : findUnits (joinSp l) = unitsOf l := by
  induction l with
  | nil => rfl
  | cons w l' ih =>
    cases l' with
    | nil => show findUnits w = unitsOf [w]; rw [unitsOf_cons, unitsOf_nil,
        List.append_nil]
    | cons x ws =>
      show findUnits (w ++ ' ' :: joinSp (x :: ws)) = _
      rw [findUnits_join_space, ih]
      simp [unitsOf_cons]

theorem count_joinSp (l : List Text) :
    count_units (joinSp l) = (unitsOf l).length := by
  rw [count_units_len, findUnits_joinSp]

theorem count_append_space (x y : Text) :
    count_units (x ++ ' ' :: y) = count_units x + count_units y := by
  rw [count_units_len, count_units_len, count_units_len, findUnits_join_space,
    List.length_append]

/-! ## Extending a word run across a safe junction -/

theorem join_not_alnum {c : Char} (h : isJoin c = true) : isAlnumC c = false := by
  simp only [isJoin, Bool.or_eq_true, decide_eq_true_eq] at h
  rcases h with h | h <;> rw [h] <;> decide

theorem join_not_digit {c : Char} (h : isJoin c = true) : isDigitC c = false :=
  digit_false_of_alnum_false (join_not_alnum h)

theorem join_ne_dot {c : Char} (h : isJoin c = true) : c ≠ '.' := by
  simp only [isJoin, Bool.or_eq_true, decide_eq_true_eq] at h
  rcases h with h | h <;> rw [h] <;> decide

theorem matchDecimal_of_headSafe {X : Text} (hX : headSafe X = true) :
    matchDecimal X = ([], X) := by
  have h := matchDecimal_commute hX []
  simpa using h

theorem matchJoins_of_headSafe {X : Text} (hX : headSafe X = true) :
    matchJoins X = ([], X) := by
  have h := matchJoins_commute hX []
  simpa using h

theorem takeWhile_nil_of_head {p : Char → Bool} {z : Text}
    (h : ∀ b, z.head? = some b → p b = false) :
    z.takeWhile p = [] ∧ z.dropWhile p = z := by
  cases z with
  | nil => exact ⟨rfl, rfl⟩
  | cons c zs =>
    have hc := h c rfl
    exact ⟨List.takeWhile_cons_of_neg (by simp [hc]),
      List.dropWhile_cons_of_neg (by simp [hc])⟩

/-- The head of `d ++ (j ++ X)` cannot be alphanumeric. -/
theorem tail_head_not_alnum {d j X : Text} (hd : DecShape d) (hj : JoinShape j)
    (hX : headSafe X = true) :
    ∀ b, (d ++ (j ++ X)).head? = some b → isAlnumC b = false := by
  intro b hb
  rcases hd with rfl | ⟨ds, rfl, hne, hds⟩
  · rw [List.nil_append] at hb
    cases hj with
    | nil =>
      rw [List.nil_append] at hb
      exact headSafe_heads hX b hb
    | cons c a j' hc ha hal hj' =>
      rw [List.cons_append] at hb
      injection hb with hb
      subst hb
      exact join_not_alnum hc
  · rw [List.cons_append] at hb
    injection hb with hb
    subst hb
    decide

/-- The head of `j ++ X` cannot be alphanumeric. -/
theorem join_head_not_alnum {j X : Text} (hj : JoinShape j)
    (hX : headSafe X = true) :
    ∀ b, (j ++ X).head? = some b → isAlnumC b = false := by
  intro b hb
  cases hj with
  | nil =>
    rw [List.nil_append] at hb
    exact headSafe_heads hX b hb
  | cons c a j' hc ha hal hj' =>
    rw [List.cons_append] at hb
    injection hb with hb
    subst hb
    exact join_not_alnum hc

theorem decimal_ext {d j X : Text} (hd : DecShape d) (hj : JoinShape j)
    (hX : headSafe X = true) :
    matchDecimal (d ++ (j ++ X)) = (d, j ++ X) := by
  rcases hd with rfl | ⟨ds, rfl, hne, hds⟩
  · rw [List.nil_append]
    cases hj with
    | nil => rw [List.nil_append]; exact matchDecimal_of_headSafe hX
    | cons c a j' hc ha hal hj' =>
      rw [List.cons_append]
      exact matchDecimal_notdot (join_ne_dot hc) _
  · cases ds with
    | nil => exact absurd rfl hne
    | cons e ds' =>
      have he : isDigitC e = true := hds e (by simp)
      have e1 : ('.' :: e :: ds') ++ (j ++ X) = '.' :: e :: (ds' ++ (j ++ X)) := by
        simp
      have hjh : ∀ b, (j ++ X).head? = some b → isDigitC b = false :=
        fun b hb => digit_false_of_alnum_false (join_head_not_alnum hj hX b hb)
      have e2 : e :: (ds' ++ (j ++ X)) = (e :: ds') ++ (j ++ X) := by simp
      rw [e1, matchDecimal_dot_digit he, e2,
        takeWhile_append_all (fun c hc => hds c hc),
        (takeWhile_nil_of_head hjh).1, List.append_nil,
        dropWhile_append_all (fun c hc => hds c hc),
        (takeWhile_nil_of_head hjh).2]

theorem joins_ext {X : Text} (hX : headSafe X = true) :
    ∀ {j : Text}, JoinShape j → matchJoins (j ++ X) = (j, X) := by
  intro j hj
  induction hj with
  | nil => rw [List.nil_append]; exact matchJoins_of_headSafe hX
  | cons c a j' hc ha hal hj' ih =>
    cases a with
    | nil => exact absurd rfl ha
    | cons e a'' =>
      have he : isAlnumC e = true := hal e (by simp)
      have e1 : (c :: ((e :: a'') ++ j')) ++ X = c :: e :: (a'' ++ (j' ++ X)) := by
        simp
      have e2 : e :: (a'' ++ (j' ++ X)) = (e :: a'') ++ (j' ++ X) := by simp
      have hjh := join_head_not_alnum hj' hX
      rw [e1, matchJoins_cons_pos (by rw [hc, he]; rfl), e2,
        takeWhile_append_all hal, (takeWhile_nil_of_head hjh).1, List.append_nil,
        dropWhile_append_all hal, (takeWhile_nil_of_head hjh).2, ih]

/-- A word run followed by a safe junction is matched exactly. -/
theorem wordRun_matchLatin {u X : Text} (h : IsWordRun u)
    (hX : headSafe X = true) : matchLatin (u ++ X) = (u, X) := by
  obtain ⟨a, d, j, rfl, hane, hal, hd, hj⟩ := h
  have hhd := tail_head_not_alnum hd hj hX
  have e1 : (a ++ d ++ j) ++ X = a ++ (d ++ (j ++ X)) := by simp
  refine Prod.ext ?_ ?_
  · rw [e1, matchLatin_fst, takeWhile_append_all hal,
      (takeWhile_nil_of_head hhd).1, List.append_nil,
      dropWhile_append_all hal, (takeWhile_nil_of_head hhd).2,
      decimal_ext hd hj hX]
    show a ++ d ++ (matchJoins (j ++ X)).1 = a ++ d ++ j
    rw [joins_ext hX hj]
  · rw [e1, matchLatin_snd, dropWhile_append_all hal,
      (takeWhile_nil_of_head hhd).2, decimal_ext hd hj hX]
    show (matchJoins (j ++ X)).2 = X
    rw [joins_ext hX hj]

theorem wordRun_head {u : Text} (h : IsWordRun u) :
    ∃ e u', u = e :: u' ∧ isAlnumC e = true := by
  obtain ⟨a, d, j, rfl, hane, hal, _, _⟩ := h
  cases a with
  | nil => exact absurd rfl hane
  | cons e a'' => exact ⟨e, a'' ++ d ++ j, by simp, hal e (by simp)⟩

theorem findUnits_wordRun_ext {u X : Text} (h : IsWordRun u)
    (hX : headSafe X = true) : findUnits (u ++ X) = u :: findUnits X := by
  obtain ⟨e, u', he1, he2⟩ := wordRun_head h
  have hm := wordRun_matchLatin h hX
  have hm1 : (matchLatin (u ++ X)).1 = u := by rw [hm]
  have hm2 : (matchLatin (u ++ X)).2 = X := by rw [hm]
  have e1 : u ++ X = e :: (u' ++ X) := by rw [he1]; rfl
  rw [e1] at hm1 hm2
  rw [e1, findUnits_alnum he2, hm1, hm2]

theorem findUnits_wordRun {u : Text} (h : IsWordRun u) : findUnits u = [u] := by
  have h0 : headSafe ([] : Text) = true := rfl
  have := findUnits_wordRun_ext h h0
  rwa [List.append_nil, findUnits_nil] at this

theorem headSafe_single {p : Char} (hp : isAlnumC p = false) :
    headSafe [p] = true := by
  simp [headSafe, hp]

/-! ## `strip` structure -/

theorem dropWhile_head_false {p : Char → Bool} {l : Text} {c : Char}
    (h : (l.dropWhile p).head? = some c) : p c = false := by
  have hm := List.head?_dropWhile_not p l
  rw [h] at hm
  exact hm

theorem getLast?_dropWhile_of_ne {p : Char → Bool} {l : Text}
    (h : l.dropWhile p ≠ []) : (l.dropWhile p).getLast? = l.getLast? := by
  conv_rhs => rw [← @List.takeWhile_append_dropWhile _ p l]
  rw [List.getLast?_append]
  cases hgl : (l.dropWhile p).getLast? with
  | none =>
    exfalso
    cases hx : l.dropWhile p with
    | nil => exact h hx
    | cons a l' =>
      rw [hx, List.getLast?_eq_getLast (a :: l') (by simp)] at hgl
      cases hgl
  | some r => rfl

theorem strip_head_not_space {t : Text} {c : Char}
    (h : (strip t).head? = some c) : isPySpace c = false := by
  unfold strip at h
  rw [List.head?_reverse] at h
  have hne : (t.dropWhile isPySpace).reverse.dropWhile isPySpace ≠ [] := by
    intro he
    rw [he] at h
    cases h
  rw [getLast?_dropWhile_of_ne hne, List.getLast?_reverse] at h
  exact dropWhile_head_false h

theorem strip_last_not_space {t : Text} {c : Char}
    (h : (strip t).getLast? = some c) : isPySpace c = false := by
  unfold strip at h
  rw [List.getLast?_reverse] at h
  exact dropWhile_head_false h

theorem strip_idem (t : Text) : strip (strip t) = strip t := by
  have h1 : (strip t).dropWhile isPySpace = strip t := by
    cases hs : strip t with
    | nil => rfl
    | cons c rest =>
      have hc : isPySpace c = false :=
        strip_head_not_space (show (strip t).head? = some c by rw [hs]; rfl)
      exact List.dropWhile_cons_of_neg (by simp [hc])
  have h2 : (strip t).reverse.dropWhile isPySpace = (strip t).reverse := by
    cases hs : (strip t).reverse with
    | nil => rfl
    | cons c rest =>
      have hg : (strip t).getLast? = some c := by
        rw [← List.head?_reverse, hs]; rfl
      have hc : isPySpace c = false := strip_last_not_space hg
      exact List.dropWhile_cons_of_neg (by simp [hc])
  show (((strip t).dropWhile isPySpace).reverse.dropWhile isPySpace).reverse = _
  rw [h1, h2, List.reverse_reverse]

theorem dropWhile_eq_nil_of_all {p : Char → Bool} {t : Text}
    (h : ∀ c ∈ t, p c = true) : t.dropWhile p = [] := by
  induction t with
  | nil => rfl
  | cons c rest ih =>
    rw [List.dropWhile_cons_of_pos (h c (by simp))]
    exact ih (fun a ha => h a (by simp [ha]))

theorem strip_nil_of_all_space {t : Text} (h : ∀ c ∈ t, isPySpace c = true) :
    strip t = [] := by
  unfold strip
  rw [dropWhile_eq_nil_of_all h]
  rfl

/-! ## Claim C9: blank input yields the empty chunk sequence -/

/-- C9: for every empty or whitespace-only text and every budget
(valid or not), `chunk_text` yields the empty sequence of chunks and
signals no error. -/
theorem chunk_text_blank_eq_nil (t : Text) (maxU : Int)
    (h : ∀ c ∈ t, isPySpace c = true) : chunk_text t maxU = .ok [] := by
  unfold chunk_text
  rw [strip_nil_of_all_space h]
  rfl

/-- Witness for C9 at a concrete whitespace text and an invalid budget. -/
theorem chunk_text_blank_eq_nil_witness :
    chunk_text (T "  ") (-5) = .ok [] :=
  chunk_text_blank_eq_nil (T "  ") (-5) (by decide)

/-! ## Claim C6: the single-chunk fast path -/

/-- C6 counterexample: blank input satisfies `countUnits(text) ≤ maxUnits`
with `maxUnits = 1` but yields zero chunks, not one chunk equal to the
trimmed input. -/
theorem chunk_text_fast_path_cex :
    (count_units (T " ") : Int) ≤ 1 ∧ chunk_text (T " ") 1 = .ok [] ∧
      chunk_text (T " ") 1 ≠ .ok [strip (T " ")] := by
  refine ⟨by decide, rfl, ?_⟩
  intro h
  rw [show chunk_text (T " ") 1 = .ok [] from rfl] at h
  injection h with h
  simp at h

/-- C6 amended: for every text whose trimmed form is non-empty, if
`countUnits(text) ≤ maxUnits` then `chunk_text` yields exactly one
chunk, the trimmed input. -/
theorem chunk_text_fast_path (t : Text) (maxU : Int) (h1 : strip t ≠ [])
    (h2 : (count_units t : Int) ≤ maxU) : chunk_text t maxU = .ok [strip t] := by
  have he : (strip t).isEmpty = false := by
    cases hi : (strip t).isEmpty
    · rfl
    · exact absurd (List.isEmpty_iff.mp hi) h1
  have hc : (count_units (strip t) : Int) ≤ maxU := by
    rw [count_units_strip]; exact h2
  show (if (strip t).isEmpty = true then Except.ok []
    else if (count_units (strip t) : Int) ≤ maxU then Except.ok [strip t]
    else tryLevels maxU (strip t) punct_levels) = Except.ok [strip t]
  rw [he]
  simp only [Bool.false_eq_true, if_false, if_pos hc]

/-- Witness for C6 at a concrete input. -/
theorem chunk_text_fast_path_witness :
    chunk_text (T "Hello, world!") 100 = .ok [strip (T "Hello, world!")] :=
  chunk_text_fast_path (T "Hello, world!") 100 (by decide) (by decide)

/-! ## Claim C5: the tier-1 paragraph split -/

/-- C5 counterexample: the tier-1 splitter retains the `"\n\n"`
separator on every piece but the last, so a returned segment contains
the separator and is not trimmed. -/
theorem split_by_punct_nn_cex :
    split_by_punct (.lit (T "\n\n")) (T "a\n\nb") = [T "a\n\n", T "b"] ∧
      strip (T "a\n\n") ≠ T "a\n\n" :=
  ⟨rfl, by decide⟩

/-- C5 amended: tier-1 splitting splits on every occurrence of `"\n\n"`,
but the separator is retained, not dropped: every piece except the last
is its trimmed non-empty core with `"\n\n"` re-appended (blank cores
are dropped), and only the last piece is a trimmed segment without the
separator. -/
theorem tier1_segments_shape (t : Text) :
    (∀ s ∈ (split_by_punct (.lit (T "\n\n")) t).dropLast,
      ∃ core, s = core ++ T "\n\n" ∧ strip core = core ∧ core ≠ []) ∧
    strip ((split_by_punct (.lit (T "\n\n")) t).getLastD []) =
      (split_by_punct (.lit (T "\n\n")) t).getLastD [] := by
  have hsp : split_by_punct (.lit (T "\n\n")) t = splitStr (T "\n\n") t := rfl
  rw [hsp]
  unfold splitStr
  constructor
  · intro s hs
    rw [List.dropLast_concat] at hs
    rw [List.mem_filterMap] at hs
    obtain ⟨p, _, hp⟩ := hs
    by_cases hb : (strip p).isEmpty = true
    · rw [if_pos hb] at hp; cases hp
    · rw [if_neg hb] at hp
      injection hp with hp
      refine ⟨strip p, hp.symm, strip_idem p, ?_⟩
      intro he
      rw [he] at hb
      exact hb rfl
  · rw [List.getLastD_eq_getLast?, List.getLast?_concat, Option.getD_some]
    exact strip_idem _

/-! ## Claim C7: the decimal-point literal scenario -/

/-- C7: the spec's literal scenario.  The period inside `80.79` is not a
sentence boundary and the number is never split. -/
theorem chunk_text_decimal_example :
    chunk_text (T "An average human lives for 80.79 years. Then they die.") 4 =
      .ok [T "An average human lives", T "for 80.79 years.", T "Then they die."] :=
  rfl

/-! ## Claim C4 counterexample: no budget validation -/

/-- C4 counterexample: with `maxUnits = 0 < 1` and Latin input the
engine does not report an invalid-argument failure; it silently yields
chunks (the first of them empty). -/
theorem chunk_text_zero_budget_cex :
    chunk_text (T "a b") 0 = .ok [T "", T "a", T "b"] := rfl

/-- With `maxUnits = 0` and CJK input the engine raises Python's
`ValueError` from `range()` — an unvalidated crash, not an immediate
invalid-argument report. -/
theorem chunk_text_zero_budget_cjk :
    chunk_text (T "你好") 0 =
      .error "ValueError: range() arg 3 must not be zero" := rfl

/-! ## Claim C3 counterexample: adjacent chunks that would fit -/

/-- C3 counterexample: the oversized-segment fallback emits `"e."`
(1 unit) directly before `"x y"` (2 units) with `maxUnits = 4`, so two
consecutive yielded chunks have combined count `≤ maxUnits`. -/
theorem chunk_text_adjacent_cex :
    chunk_text (T "a b c d e. x y") 4 = .ok [T "a b c d", T "e.", T "x y"] ∧
      (count_units (T "e.") + count_units (T "x y") : Int) ≤ 4 := by
  exact ⟨rfl, by decide⟩

/-! ## Characters of a word run; whitespace tokenization -/

theorem joinShape_chars {j : Text} (h : JoinShape j) :
    ∀ c ∈ j, isJoin c = true ∨ isAlnumC c = true := by
  induction h with
  | nil => intro c hc; cases hc
  | cons c' a j' hc' ha hal hj ih =>
    intro c hc
    rw [List.mem_cons, List.mem_append] at hc
    rcases hc with rfl | hc | hc
    · exact Or.inl hc'
    · exact Or.inr (hal c hc)
    · exact ih c hc

theorem decShape_chars {d : Text} (h : DecShape d) :
    ∀ c ∈ d, c = '.' ∨ isDigitC c = true := by
  rcases h with rfl | ⟨ds, rfl, _, hds⟩
  · intro c hc; cases hc
  · intro c hc
    rw [List.mem_cons] at hc
    rcases hc with rfl | hc
    · exact Or.inl rfl
    · exact Or.inr (hds c hc)

theorem wordRun_chars {u : Text} (h : IsWordRun u) :
    ∀ c ∈ u, isAlnumC c = true ∨ c = '.' ∨ isJoin c = true := by
  obtain ⟨a, d, j, rfl, _, hal, hd, hj⟩ := h
  intro c hc
  rw [List.append_assoc, List.mem_append, List.mem_append] at hc
  rcases hc with hc | hc | hc
  · exact Or.inl (hal c hc)
  · rcases decShape_chars hd c hc with h' | h'
    · exact Or.inr (Or.inl h')
    · exact Or.inl (isDigitC_alnum h')
  · rcases joinShape_chars hj c hc with h' | h'
    · exact Or.inr (Or.inr h')
    · exact Or.inl h'

theorem join_not_space {c : Char} (h : isJoin c = true) : isPySpace c = false := by
  simp only [isJoin, Bool.or_eq_true, decide_eq_true_eq] at h
  rcases h with h | h <;> rw [h] <;> decide

theorem wordRun_nospace {u : Text} (h : IsWordRun u) :
    ∀ c ∈ u, isPySpace c = false := by
  intro c hc
  rcases wordRun_chars h c hc with h' | h' | h'
  · exact alnum_not_space h'
  · rw [h']; decide
  · exact join_not_space h'

theorem wordRun_ne_nil {u : Text} (h : IsWordRun u) : u ≠ [] := by
  obtain ⟨e, u', rfl, _⟩ := wordRun_head h
  simp

theorem pySplitWsAux_word {w : Text} (hw : ∀ c ∈ w, isPySpace c = false) :
    ∀ acc rest, pySplitWsAux acc (w ++ rest) =
      pySplitWsAux (w.reverse ++ acc) rest := by
  induction w with
  | nil => intro acc rest; rfl
  | cons c w' ih =>
    intro acc rest
    have hc := hw c (by simp)
    show pySplitWsAux acc (c :: (w' ++ rest)) = _
    rw [pySplitWsAux, if_neg (by simp [hc]),
      ih (fun a ha => hw a (by simp [ha])) (c :: acc) rest]
    congr 1
    simp

theorem pySplitWsAux_space_skip {sp : Text} (hsp : ∀ c ∈ sp, isPySpace c = true) :
    ∀ rest, pySplitWsAux [] (sp ++ rest) = pySplitWsAux [] rest := by
  induction sp with
  | nil => intro rest; rfl
  | cons c sp' ih =>
    intro rest
    show pySplitWsAux [] (c :: (sp' ++ rest)) = _
    rw [pySplitWsAux, if_pos (by simp [hsp c (by simp)])]
    show pySplitWsAux [] (sp' ++ rest) = _
    exact ih (fun a ha => hsp a (by simp [ha])) rest

theorem pySplitWsAux_flush {acc sp : Text} (hacc : acc ≠ [])
    (hne : sp ≠ []) (hsp : ∀ c ∈ sp, isPySpace c = true) (rest : Text) :
    pySplitWsAux acc (sp ++ rest) = acc.reverse :: pySplitWsAux [] rest := by
  cases sp with
  | nil => exact absurd rfl hne
  | cons c sp' =>
    show pySplitWsAux acc (c :: (sp' ++ rest)) = _
    rw [pySplitWsAux, if_pos (by simp [hsp c (by simp)]),
      if_neg (by simp [hacc]),
      pySplitWsAux_space_skip (fun a ha => hsp a (by simp [ha])) rest]

theorem pySplitWs_token {w : Text} (hne : w ≠ [])
    (hw : ∀ c ∈ w, isPySpace c = false) {sp : Text} (hspne : sp ≠ [])
    (hsp : ∀ c ∈ sp, isPySpace c = true) (rest : Text) :
    pySplitWs (w ++ sp ++ rest) = w :: pySplitWs rest := by
  rw [List.append_assoc]
  show pySplitWsAux [] (w ++ (sp ++ rest)) = _
  rw [pySplitWsAux_word hw [] (sp ++ rest), List.append_nil,
    pySplitWsAux_flush (by simp [hne]) hspne hsp rest, List.reverse_reverse]
  rfl

theorem pySplitWs_single {w : Text} (hne : w ≠ [])
    (hw : ∀ c ∈ w, isPySpace c = false) : pySplitWs w = [w] := by
  show pySplitWsAux [] w = [w]
  conv_lhs => rw [← List.append_nil w]
  rw [pySplitWsAux_word hw [] [], List.append_nil, pySplitWsAux,
    if_neg (by simp [hne]), List.reverse_reverse]

/-! ## Structure of the Latin word chain -/

theorem headSafe_space_headed {sp : Text} (hne : sp ≠ [])
    (hsp : ∀ c ∈ sp, isPySpace c = true) (z : Text) :
    headSafe (sp ++ z) = true := by
  cases sp with
  | nil => exact absurd rfl hne
  | cons c sp' => exact break_headSafe (space_break (hsp c (by simp))) _

theorem findUnits_dropSpace (r : Text) :
    findUnits (r.dropWhile isPySpace) = findUnits r := by
  conv_rhs => rw [← @List.takeWhile_append_dropWhile _ isPySpace r]
  rw [findUnits_space_lead (fun c hc => List.mem_takeWhile_imp hc)]

theorem latinChainF_succ_none {s : Text} {b : Nat}
    (hh : ((matchLatin s).2.dropWhile isPySpace).head? = none) :
    latinChainF (b + 1) s = ((matchLatin s).1, [(matchLatin s).1], (matchLatin s).2) := by
  simp only [latinChainF, hh]

theorem latinChainF_succ_neg {s : Text} {b : Nat} {c : Char}
    (hh : ((matchLatin s).2.dropWhile isPySpace).head? = some c)
    (hcond : (((matchLatin s).2.takeWhile isPySpace).isEmpty = false &&
      isAlnumC c) = false) :
    latinChainF (b + 1) s = ((matchLatin s).1, [(matchLatin s).1], (matchLatin s).2) := by
  simp only [latinChainF, hh, hcond, Bool.false_eq_true, if_false]

theorem latinChainF_succ_pos {s : Text} {b : Nat} {c : Char}
    (hh : ((matchLatin s).2.dropWhile isPySpace).head? = some c)
    (hcond : (((matchLatin s).2.takeWhile isPySpace).isEmpty = false &&
      isAlnumC c) = true) :
    latinChainF (b + 1) s =
      ((matchLatin s).1 ++ (matchLatin s).2.takeWhile isPySpace ++
        (latinChainF b ((matchLatin s).2.dropWhile isPySpace)).1,
       (matchLatin s).1 ::
        (latinChainF b ((matchLatin s).2.dropWhile isPySpace)).2.1,
       (latinChainF b ((matchLatin s).2.dropWhile isPySpace)).2.2) := by
  simp only [latinChainF, hh, hcond, if_true]

theorem matchLatin_fst_ne {c : Char} (hc : isAlnumC c = true) (rest : Text) :
    (matchLatin (c :: rest)).1 ≠ [] :=
  wordRun_ne_nil (matchLatin_shape hc rest)

/-- The main structural lemma for the Latin word chain: the word list is
non-empty, every word is a word run, the raw chain followed by any
non-space tail tokenizes into the words with the tail glued onto the
last word, the chain's units are exactly the words, and scanning the
source text yields the words followed by the scan of the rest. -/
theorem latinChainF_main :
    ∀ b s, s.length ≤ b → ∀ c₀ r₀, s = c₀ :: r₀ → isAlnumC c₀ = true →
      ∃ ws w, (latinChainF b s).2.1 = ws ++ [w] ∧
        (∀ v ∈ ws ++ [w], IsWordRun v) ∧
        (∀ tp, (∀ ch ∈ tp, isPySpace ch = false) →
          pySplitWs ((latinChainF b s).1 ++ tp) = ws ++ [w ++ tp]) ∧
        (∀ tp, headSafe tp = true →
          findUnits ((latinChainF b s).1 ++ tp) = (ws ++ [w]) ++ findUnits tp) ∧
        findUnits s = (ws ++ [w]) ++ findUnits (latinChainF b s).2.2 := by
  intro b
  induction b with
  | zero =>
    intro s hlen c₀ r₀ hs hc
    subst hs
    simp at hlen
  | succ b ih =>
    intro s hlen c₀ r₀ hs hc
    subst hs
    have hwrun : IsWordRun (matchLatin (c₀ :: r₀)).1 := matchLatin_shape hc r₀
    have hwne : (matchLatin (c₀ :: r₀)).1 ≠ [] := wordRun_ne_nil hwrun
    have hwns : ∀ ch ∈ (matchLatin (c₀ :: r₀)).1, isPySpace ch = false :=
      wordRun_nospace hwrun
    have hstop : ∀ (heq : latinChainF (b + 1) (c₀ :: r₀) =
        ((matchLatin (c₀ :: r₀)).1, [(matchLatin (c₀ :: r₀)).1],
          (matchLatin (c₀ :: r₀)).2)),
        ∃ ws w, (latinChainF (b + 1) (c₀ :: r₀)).2.1 = ws ++ [w] ∧
          (∀ v ∈ ws ++ [w], IsWordRun v) ∧
          (∀ tp, (∀ ch ∈ tp, isPySpace ch = false) →
            pySplitWs ((latinChainF (b + 1) (c₀ :: r₀)).1 ++ tp) = ws ++ [w ++ tp]) ∧
          (∀ tp, headSafe tp = true →
            findUnits ((latinChainF (b + 1) (c₀ :: r₀)).1 ++ tp) =
              (ws ++ [w]) ++ findUnits tp) ∧
          findUnits (c₀ :: r₀) =
            (ws ++ [w]) ++ findUnits (latinChainF (b + 1) (c₀ :: r₀)).2.2 := by
      intro heq
      rw [heq]
      refine ⟨[], (matchLatin (c₀ :: r₀)).1, rfl, ?_, ?_, ?_, ?_⟩
      · intro v hv
        rw [List.nil_append, List.mem_singleton] at hv
        subst hv
        exact hwrun
      · intro tp htp
        rw [List.nil_append]
        refine pySplitWs_single (by simp [hwne]) ?_
        intro ch hch
        rw [List.mem_append] at hch
        rcases hch with hch | hch
        · exact hwns ch hch
        · exact htp ch hch
      · intro tp htp
        rw [List.nil_append, findUnits_wordRun_ext hwrun htp]
        rfl
      · rw [List.nil_append, findUnits_alnum hc]
        rfl
    rcases hh : (((matchLatin (c₀ :: r₀)).2).dropWhile isPySpace).head? with _ | c
    · exact hstop (latinChainF_succ_none hh)
    · cases hcond : (((matchLatin (c₀ :: r₀)).2.takeWhile isPySpace).isEmpty =
        false && isAlnumC c) with
      | false => exact hstop (latinChainF_succ_neg hh hcond)
      | true =>
        have hspne : (matchLatin (c₀ :: r₀)).2.takeWhile isPySpace ≠ [] := by
          have h1 := (Bool.and_eq_true _ _).mp hcond |>.1
          intro he
          rw [he] at h1
          simp at h1
        have hcal : isAlnumC c = true := (Bool.and_eq_true _ _).mp hcond |>.2
        have hsps : ∀ ch ∈ (matchLatin (c₀ :: r₀)).2.takeWhile isPySpace,
            isPySpace ch = true := fun ch hch => List.mem_takeWhile_imp hch
        obtain ⟨r'', hr''⟩ :
            ∃ r'', (matchLatin (c₀ :: r₀)).2.dropWhile isPySpace = c :: r'' := by
          cases hd : (matchLatin (c₀ :: r₀)).2.dropWhile isPySpace with
          | nil => rw [hd] at hh; cases hh
          | cons a l =>
            rw [hd] at hh
            injection hh with hh
            subst hh
            exact ⟨l, rfl⟩
        have hlen' : ((matchLatin (c₀ :: r₀)).2.dropWhile isPySpace).length ≤ b := by
          have h1 := matchLatin_snd_le_cons hc r₀
          have h2 := length_dropWhile_le isPySpace (matchLatin (c₀ :: r₀)).2
          simp only [List.length_cons] at hlen
          omega
        obtain ⟨ws', w', h1, h2, h3, h4, h5⟩ :=
          ih ((matchLatin (c₀ :: r₀)).2.dropWhile isPySpace) hlen' c r'' hr'' hcal
        rw [latinChainF_succ_pos hh hcond]
        refine ⟨(matchLatin (c₀ :: r₀)).1 :: ws', w', ?_, ?_, ?_, ?_, ?_⟩
        · show (matchLatin (c₀ :: r₀)).1 :: _ = _
          rw [h1]
          rfl
        · intro v hv
          rw [List.cons_append, List.mem_cons] at hv
          rcases hv with rfl | hv
          · exact hwrun
          · exact h2 v hv
        · intro tp htp
          show pySplitWs ((matchLatin (c₀ :: r₀)).1 ++
            (matchLatin (c₀ :: r₀)).2.takeWhile isPySpace ++
            (latinChainF b ((matchLatin (c₀ :: r₀)).2.dropWhile isPySpace)).1 ++
            tp) = _
          have e1 : (matchLatin (c₀ :: r₀)).1 ++
              (matchLatin (c₀ :: r₀)).2.takeWhile isPySpace ++
              (latinChainF b ((matchLatin (c₀ :: r₀)).2.dropWhile isPySpace)).1 ++
              tp =
            (matchLatin (c₀ :: r₀)).1 ++
              ((matchLatin (c₀ :: r₀)).2.takeWhile isPySpace) ++
              ((latinChainF b ((matchLatin (c₀ :: r₀)).2.dropWhile isPySpace)).1 ++
                tp) := by
            simp [List.append_assoc]
          rw [e1, pySplitWs_token hwne hwns hspne hsps _, h3 tp htp,
            List.cons_append]
        · intro tp htp
          show findUnits ((matchLatin (c₀ :: r₀)).1 ++
            (matchLatin (c₀ :: r₀)).2.takeWhile isPySpace ++
            (latinChainF b ((matchLatin (c₀ :: r₀)).2.dropWhile isPySpace)).1 ++
            tp) = _
          have e1 : (matchLatin (c₀ :: r₀)).1 ++
              (matchLatin (c₀ :: r₀)).2.takeWhile isPySpace ++
              (latinChainF b ((matchLatin (c₀ :: r₀)).2.dropWhile isPySpace)).1 ++
              tp =
            (matchLatin (c₀ :: r₀)).1 ++
              ((matchLatin (c₀ :: r₀)).2.takeWhile isPySpace ++
              ((latinChainF b ((matchLatin (c₀ :: r₀)).2.dropWhile isPySpace)).1 ++
                tp)) := by
            simp [List.append_assoc]
          rw [e1, findUnits_wordRun_ext hwrun
              (headSafe_space_headed hspne hsps _),
            findUnits_space_lead hsps, h4 tp htp]
          simp
        · show findUnits (c₀ :: r₀) = _ ++
            findUnits (latinChainF b ((matchLatin (c₀ :: r₀)).2.dropWhile isPySpace)).2.2
          rw [findUnits_alnum hc, ← findUnits_dropSpace (matchLatin (c₀ :: r₀)).2,
            h5]
          simp

/-! ## Segment inventories -/

theorem classPunct_not_alnum : ∀ p ∈ classPunct, isAlnumC p = false := by decide

theorem classPunct_not_cjk : ∀ p ∈ classPunct, isCJK p = false := by decide

theorem classPunct_nospace : ∀ p ∈ classPunct, isPySpace p = false := by decide

theorem cjkPunct_not_alnum : ∀ p ∈ cjkPunct, isAlnumC p = false := by decide

theorem cjkPunct_not_cjk : ∀ p ∈ cjkPunct, isCJK p = false := by decide

theorem findUnits_cjkrun {run : Text} (h : ∀ c ∈ run, isCJK c = true) :
    ∀ z, findUnits (run ++ z) = run.map (fun c => [c]) ++ findUnits z := by
  induction run with
  | nil => intro z; rfl
  | cons c run' ih =>
    intro z
    rw [List.cons_append, findUnits_cjk (h c (by simp)),
      ih (fun a ha => h a (by simp [ha])) z, List.map_cons, List.cons_append]

theorem latinChainF_decomp :
    ∀ b s, (latinChainF b s).1 ++ (latinChainF b s).2.2 = s := by
  intro b
  induction b with
  | zero => intro s; rfl
  | succ b ih =>
    intro s
    rcases hh : ((matchLatin s).2.dropWhile isPySpace).head? with _ | c
    · rw [latinChainF_succ_none hh]
      exact matchLatin_decomp s
    · cases hcond : (((matchLatin s).2.takeWhile isPySpace).isEmpty = false &&
        isAlnumC c) with
      | false =>
        rw [latinChainF_succ_neg hh hcond]
        exact matchLatin_decomp s
      | true =>
        rw [latinChainF_succ_pos hh hcond]
        show (matchLatin s).1 ++ (matchLatin s).2.takeWhile isPySpace ++ _ ++ _ = s
        rw [List.append_assoc, List.append_assoc, ih, List.takeWhile_append_dropWhile]
        exact matchLatin_decomp s

theorem matchLatinSeg_none {s : Text} (hr : (latinChain s).2.2.head? = none) :
    matchLatinSeg s = ((latinChain s).1, (latinChain s).2.2) := by
  simp only [matchLatinSeg, hr]

theorem matchLatinSeg_punct {s : Text} {p : Char}
    (hr : (latinChain s).2.2.head? = some p) (hp : p ∈ classPunct) :
    matchLatinSeg s = ((latinChain s).1 ++ [p], (latinChain s).2.2.tail) := by
  simp only [matchLatinSeg, hr, if_pos hp]

theorem matchLatinSeg_nopunct {s : Text} {p : Char}
    (hr : (latinChain s).2.2.head? = some p) (hp : p ∉ classPunct) :
    matchLatinSeg s = ((latinChain s).1, (latinChain s).2.2) := by
  simp only [matchLatinSeg, hr, if_neg hp]

theorem matchLatinSeg_spec {c₀ : Char} {r₀ : Text} (hc : isAlnumC c₀ = true) :
    ∃ u, LatinSeg (matchLatinSeg (c₀ :: r₀)).1 u ∧
      findUnits (c₀ :: r₀) = u ++ findUnits (matchLatinSeg (c₀ :: r₀)).2 ∧
      (matchLatinSeg (c₀ :: r₀)).2.length ≤ r₀.length := by
  obtain ⟨ws, w, h1, h2, h3, h4, h5⟩ :=
    latinChainF_main (c₀ :: r₀).length (c₀ :: r₀) le_rfl c₀ r₀ rfl hc
  have el : latinChainF (c₀ :: r₀).length (c₀ :: r₀) = latinChain (c₀ :: r₀) := rfl
  rw [el] at h1 h3 h4 h5
  have hdec : (latinChain (c₀ :: r₀)).1 ++ (latinChain (c₀ :: r₀)).2.2 =
      c₀ :: r₀ := by
    rw [← el]; exact latinChainF_decomp _ _
  have hchne : (latinChain (c₀ :: r₀)).1 ≠ [] := by
    intro he
    rw [he, List.nil_append] at hdec
    rw [hdec] at h5
    have hlen := congrArg List.length h5
    simp at hlen
    omega
  have hheadc : (latinChain (c₀ :: r₀)).1.head? = some c₀ := by
    cases hch : (latinChain (c₀ :: r₀)).1 with
    | nil => exact absurd hch hchne
    | cons a l =>
      rw [hch, List.cons_append] at hdec
      injection hdec with ha _
      simp [ha]
  have hhead : ∀ tp : Text, ((latinChain (c₀ :: r₀)).1 ++ tp).head? = some c₀ := by
    intro tp
    cases hch : (latinChain (c₀ :: r₀)).1 with
    | nil => exact absurd hch hchne
    | cons a l =>
      rw [hch] at hheadc
      injection hheadc with ha
      simp [ha]
  have hlenchain : (latinChain (c₀ :: r₀)).2.2.length + 1 ≤ (c₀ :: r₀).length := by
    have hl := congrArg List.length hdec
    simp only [List.length_append] at hl
    have hge : 1 ≤ (latinChain (c₀ :: r₀)).1.length := by
      cases hch : (latinChain (c₀ :: r₀)).1 with
      | nil => exact absurd hch hchne
      | cons a l => simp [hch]
    simp only [List.length_cons] at hl ⊢
    omega
  rcases hr : (latinChain (c₀ :: r₀)).2.2.head? with _ | p
  · rw [matchLatinSeg_none hr]
    dsimp only
    refine ⟨ws ++ [w], ⟨ws, w, [], rfl, h2, Or.inl rfl, ?_, ?_, ?_⟩, h5, ?_⟩
    · rw [List.append_nil]
      have := h3 [] (by intro ch hch; cases hch)
      simpa using this
    · have := h4 [] rfl
      rwa [List.append_nil, findUnits_nil, List.append_nil] at this
    · exact ⟨c₀, hheadc, hc⟩
    · simp only [List.length_cons] at hlenchain
      omega
  · by_cases hp : p ∈ classPunct
    · rw [matchLatinSeg_punct hr hp]
      dsimp only
      obtain ⟨rt, hrt⟩ : ∃ rt, (latinChain (c₀ :: r₀)).2.2 = p :: rt := by
        cases hd : (latinChain (c₀ :: r₀)).2.2 with
        | nil => rw [hd] at hr; cases hr
        | cons a l =>
          rw [hd] at hr
          injection hr with hr
          subst hr
          exact ⟨l, rfl⟩
      refine ⟨ws ++ [w], ⟨ws, w, [p], rfl, h2, Or.inr ⟨p, rfl, hp⟩, ?_, ?_, ?_⟩,
        ?_, ?_⟩
      · exact h3 [p] (by
          intro ch hch
          rw [List.mem_singleton] at hch
          rw [hch]
          exact classPunct_nospace p hp)
      · have h4' := h4 [p] (headSafe_single (classPunct_not_alnum p hp))
        rw [h4', findUnits_skip (classPunct_not_cjk p hp)
          (classPunct_not_alnum p hp), findUnits_nil, List.append_nil]
      · exact ⟨c₀, hhead [p], hc⟩
      · rw [h5, hrt]
        show _ = _ ++ findUnits (p :: rt).tail
        rw [findUnits_skip (classPunct_not_cjk p hp) (classPunct_not_alnum p hp)]
        rfl
      · show (latinChain (c₀ :: r₀)).2.2.tail.length ≤ r₀.length
        rw [hrt] at hlenchain ⊢
        simp only [List.length_cons, List.tail_cons] at hlenchain ⊢
        omega
    · rw [matchLatinSeg_nopunct hr hp]
      dsimp only
      refine ⟨ws ++ [w], ⟨ws, w, [], rfl, h2, Or.inl rfl, ?_, ?_, ?_⟩, h5, ?_⟩
      · rw [List.append_nil]
        have := h3 [] (by intro ch hch; cases hch)
        simpa using this
      · have := h4 [] rfl
        rwa [List.append_nil, findUnits_nil, List.append_nil] at this
      · exact ⟨c₀, hheadc, hc⟩
      · simp only [List.length_cons] at hlenchain
        omega

theorem matchCJKSeg_none {s : Text} (hr : (s.dropWhile isCJK).head? = none) :
    matchCJKSeg s = (s.takeWhile isCJK, s.dropWhile isCJK) := by
  simp only [matchCJKSeg, hr]

theorem matchCJKSeg_punct {s : Text} {p : Char}
    (hr : (s.dropWhile isCJK).head? = some p) (hp : p ∈ cjkPunct) :
    matchCJKSeg s = (s.takeWhile isCJK ++ [p], (s.dropWhile isCJK).tail) := by
  simp only [matchCJKSeg, hr, if_pos hp]

theorem matchCJKSeg_nopunct {s : Text} {p : Char}
    (hr : (s.dropWhile isCJK).head? = some p) (hp : p ∉ cjkPunct) :
    matchCJKSeg s = (s.takeWhile isCJK, s.dropWhile isCJK) := by
  simp only [matchCJKSeg, hr, if_neg hp]

/-- Inventory of a matched CJK segment: it is a `CJKSeg`, the scan of
the input decomposes across it, and the rest shrinks. -/
theorem matchCJKSeg_spec {c₀ : Char} {r₀ : Text} (hc : isCJK c₀ = true) :
    CJKSeg (matchCJKSeg (c₀ :: r₀)).1 ∧
      findUnits (c₀ :: r₀) =
        findUnits (matchCJKSeg (c₀ :: r₀)).1 ++
          findUnits (matchCJKSeg (c₀ :: r₀)).2 ∧
      (matchCJKSeg (c₀ :: r₀)).2.length ≤ r₀.length := by
  have hrun : (c₀ :: r₀).takeWhile isCJK = c₀ :: r₀.takeWhile isCJK :=
    List.takeWhile_cons_of_pos hc
  have hdrop : (c₀ :: r₀).dropWhile isCJK = r₀.dropWhile isCJK :=
    List.dropWhile_cons_of_pos hc
  have hall : ∀ c ∈ (c₀ :: r₀).takeWhile isCJK, isCJK c = true :=
    fun c hcm => List.mem_takeWhile_imp hcm
  have hne : (c₀ :: r₀).takeWhile isCJK ≠ [] := by rw [hrun]; simp
  have hdl : ((c₀ :: r₀).dropWhile isCJK).length ≤ r₀.length := by
    rw [hdrop]; exact (List.dropWhile_sublist _).length_le
  have hsplit : (c₀ :: r₀).takeWhile isCJK ++ (c₀ :: r₀).dropWhile isCJK =
      c₀ :: r₀ := List.takeWhile_append_dropWhile isCJK (c₀ :: r₀)
  have hUrun : findUnits ((c₀ :: r₀).takeWhile isCJK) =
      ((c₀ :: r₀).takeWhile isCJK).map (fun c => [c]) := by
    have := findUnits_cjkrun hall []
    rwa [List.append_nil, findUnits_nil, List.append_nil] at this
  rcases hr : ((c₀ :: r₀).dropWhile isCJK).head? with _ | p
  · have hdnil : (c₀ :: r₀).dropWhile isCJK = [] := by
      cases hd : (c₀ :: r₀).dropWhile isCJK with
      | nil => rfl
      | cons a l => rw [hd] at hr; cases hr
    rw [matchCJKSeg_none hr]
    dsimp only
    refine ⟨⟨(c₀ :: r₀).takeWhile isCJK, [], (List.append_nil _).symm, hne,
      hall, Or.inl rfl, hUrun⟩, ?_, ?_⟩
    · rw [hdnil, findUnits_nil, List.append_nil]
      conv_lhs => rw [← hsplit, hdnil, List.append_nil]
    · rw [hdnil]; simp
  · have hpc : isCJK p = false := dropWhile_head_false hr
    obtain ⟨pt, hdp⟩ : ∃ pt, (c₀ :: r₀).dropWhile isCJK = p :: pt := by
      cases hd : (c₀ :: r₀).dropWhile isCJK with
      | nil => rw [hd] at hr; cases hr
      | cons a l =>
        rw [hd] at hr
        injection hr with ha
        exact ⟨l, by rw [ha]⟩
    by_cases hp : p ∈ cjkPunct
    · have hpa : isAlnumC p = false := cjkPunct_not_alnum p hp
      have hUp : findUnits [p] = ([] : List Text) := by
        rw [findUnits_skip hpc hpa, findUnits_nil]
      have hUseg : findUnits ((c₀ :: r₀).takeWhile isCJK ++ [p]) =
          ((c₀ :: r₀).takeWhile isCJK).map (fun c => [c]) := by
        rw [findUnits_cjkrun hall [p], hUp, List.append_nil]
      rw [matchCJKSeg_punct hr hp]
      dsimp only
      refine ⟨⟨(c₀ :: r₀).takeWhile isCJK, [p], rfl, hne, hall,
        Or.inr ⟨p, rfl, hp⟩, hUseg⟩, ?_, ?_⟩
      · rw [hUseg, hdp, List.tail_cons]
        conv_lhs => rw [← hsplit, hdp]
        rw [findUnits_cjkrun hall (p :: pt), findUnits_skip hpc hpa]
      · rw [hdp, List.tail_cons]
        rw [hdp] at hdl
        simp only [List.length_cons] at hdl
        omega
    · rw [matchCJKSeg_nopunct hr hp]
      dsimp only
      refine ⟨⟨(c₀ :: r₀).takeWhile isCJK, [], (List.append_nil _).symm, hne,
        hall, Or.inl rfl, hUrun⟩, ?_, ?_⟩
      · rw [hUrun]
        conv_lhs => rw [← hsplit]
        exact findUnits_cjkrun hall _
      · exact hdl

theorem cjk_not_space {c : Char} (h : isCJK c = true) : isPySpace c = false := by
  simp only [isCJK, isPySpace, Bool.and_eq_true, Bool.or_eq_true,
    Bool.and_eq_false_iff, Bool.or_eq_false_iff, decide_eq_true_eq,
    decide_eq_false_iff_not] at *
  omega

theorem strip_ne_nil_of_mem {t : Text} {c : Char} (hc : c ∈ t)
    (hs : isPySpace c = false) : strip t ≠ [] := by
  intro h0
  obtain ⟨pre, post, hdec, hpre, hpost⟩ := strip_decomp t
  rw [h0, List.append_nil] at hdec
  rw [hdec] at hc
  rcases List.mem_append.mp hc with h | h
  · rw [hpre c h] at hs; cases hs
  · rw [hpost c h] at hs; cases hs

theorem findSegsF_succ_alnum {c : Char} (hc : isAlnumC c = true) (b : Nat)
    (rest : Text) : findSegsF (b + 1) (c :: rest) =
      (matchLatinSeg (c :: rest)).1 ::
        findSegsF b (matchLatinSeg (c :: rest)).2 := by
  simp [findSegsF, hc]

theorem findSegsF_succ_cjk {c : Char} (hc : isCJK c = true) (b : Nat)
    (rest : Text) : findSegsF (b + 1) (c :: rest) =
      (matchCJKSeg (c :: rest)).1 ::
        findSegsF b (matchCJKSeg (c :: rest)).2 := by
  simp [findSegsF, hc, cjk_not_alnum hc]

theorem findSegsF_succ_skip {c : Char} (h1 : isAlnumC c = false)
    (h2 : isCJK c = false) (b : Nat) (rest : Text) :
    findSegsF (b + 1) (c :: rest) = findSegsF b rest := by
  simp [findSegsF, h1, h2]

theorem findSegsF_congr :
    ∀ b₁ b₂ s, s.length ≤ b₁ → s.length ≤ b₂ →
      findSegsF b₁ s = findSegsF b₂ s := by
  intro b₁
  induction b₁ with
  | zero =>
    intro b₂ s h1 h2
    have hs : s = [] := List.eq_nil_of_length_eq_zero (Nat.le_zero.mp h1)
    subst hs
    cases b₂ <;> rfl
  | succ b ih =>
    intro b₂ s h1 h2
    cases s with
    | nil => cases b₂ <;> rfl
    | cons c rest =>
      cases b₂ with
      | zero => simp at h2
      | succ b₂' =>
        simp only [List.length_cons] at h1 h2
        cases hal : isAlnumC c with
        | true =>
          obtain ⟨u, _, _, hlen⟩ := @matchLatinSeg_spec c rest hal
          rw [findSegsF_succ_alnum hal, findSegsF_succ_alnum hal,
            ih b₂' _ (by omega) (by omega)]
        | false =>
          cases hcj : isCJK c with
          | true =>
            obtain ⟨_, _, hlen⟩ := @matchCJKSeg_spec c rest hcj
            rw [findSegsF_succ_cjk hcj, findSegsF_succ_cjk hcj,
              ih b₂' _ (by omega) (by omega)]
          | false =>
            rw [findSegsF_succ_skip hal hcj, findSegsF_succ_skip hal hcj,
              ih b₂' rest (by omega) (by omega)]

theorem findSegs_nil : findSegs [] = [] := rfl

theorem findSegs_alnum {c : Char} {rest : Text} (hc : isAlnumC c = true) :
    findSegs (c :: rest) =
      (matchLatinSeg (c :: rest)).1 ::
        findSegs (matchLatinSeg (c :: rest)).2 := by
  show findSegsF (rest.length + 1) (c :: rest) = _
  rw [findSegsF_succ_alnum hc]
  obtain ⟨u, _, _, hlen⟩ := @matchLatinSeg_spec c rest hc
  rw [findSegsF_congr rest.length (matchLatinSeg (c :: rest)).2.length _ hlen
    le_rfl]
  rfl

theorem findSegs_cjk {c : Char} {rest : Text} (hc : isCJK c = true) :
    findSegs (c :: rest) =
      (matchCJKSeg (c :: rest)).1 ::
        findSegs (matchCJKSeg (c :: rest)).2 := by
  show findSegsF (rest.length + 1) (c :: rest) = _
  rw [findSegsF_succ_cjk hc]
  obtain ⟨_, _, hlen⟩ := @matchCJKSeg_spec c rest hc
  rw [findSegsF_congr rest.length (matchCJKSeg (c :: rest)).2.length _ hlen
    le_rfl]
  rfl

theorem findSegs_skip {c : Char} {rest : Text} (h1 : isAlnumC c = false)
    (h2 : isCJK c = false) : findSegs (c :: rest) = findSegs rest := by
  show findSegsF (rest.length + 1) (c :: rest) = _
  rw [findSegsF_succ_skip h1 h2]
  rfl

theorem LatinSeg_units {seg : Text} {u : List Text} (h : LatinSeg seg u) :
    findUnits seg = u := by
  obtain ⟨ws, w, tp, _, _, _, _, hu, _⟩ := h
  exact hu

/-- `re.findall` of the `split_mixed_text` pattern produces only Latin
and CJK segments, and together they carry exactly the units of the
input, in order. -/
theorem findSegs_inventory :
    ∀ n t, t.length ≤ n →
      (∀ seg ∈ findSegs t, (∃ u, LatinSeg seg u) ∨ CJKSeg seg) ∧
        findUnits t = unitsOf (findSegs t) := by
  intro n
  induction n with
  | zero =>
    intro t ht
    have hs : t = [] := List.eq_nil_of_length_eq_zero (Nat.le_zero.mp ht)
    subst hs
    exact ⟨fun seg hs => absurd hs (by simp [findSegs_nil]), rfl⟩
  | succ n ih =>
    intro t ht
    cases t with
    | nil => exact ⟨fun seg hs => absurd hs (by simp [findSegs_nil]), rfl⟩
    | cons c rest =>
      simp only [List.length_cons] at ht
      cases hal : isAlnumC c with
      | true =>
        obtain ⟨u, hseg, hudec, hlen⟩ := @matchLatinSeg_spec c rest hal
        obtain ⟨hrest1, hrest2⟩ := ih (matchLatinSeg (c :: rest)).2 (by omega)
        rw [findSegs_alnum hal]
        constructor
        · intro seg hs
          rcases List.mem_cons.mp hs with h | h
          · rw [h]; exact Or.inl ⟨u, hseg⟩
          · exact hrest1 seg h
        · rw [unitsOf_cons, LatinSeg_units hseg, ← hrest2]
          exact hudec
      | false =>
        cases hcj : isCJK c with
        | true =>
          obtain ⟨hseg, hudec, hlen⟩ := @matchCJKSeg_spec c rest hcj
          obtain ⟨hrest1, hrest2⟩ := ih (matchCJKSeg (c :: rest)).2 (by omega)
          rw [findSegs_cjk hcj]
          constructor
          · intro seg hs
            rcases List.mem_cons.mp hs with h | h
            · rw [h]; exact Or.inr hseg
            · exact hrest1 seg h
          · rw [unitsOf_cons, ← hrest2]
            exact hudec
        | false =>
          obtain ⟨hrest1, hrest2⟩ := ih rest (by omega)
          rw [findSegs_skip hal hcj, findUnits_skip hcj hal]
          exact ⟨hrest1, hrest2⟩

theorem seg_strip_ne_nil {seg : Text}
    (h : (∃ u, LatinSeg seg u) ∨ CJKSeg seg) : strip seg ≠ [] := by
  rcases h with ⟨u, ws, w, tp, _, _, _, _, _, e, he, hea⟩ |
    ⟨run, tp, hseg, hne, hall, _, _⟩
  · cases seg with
    | nil => cases he
    | cons a l =>
      injection he with ha
      have hm : e ∈ a :: l := by rw [← ha]; exact List.mem_cons_self a l
      exact strip_ne_nil_of_mem hm (alnum_not_space hea)
  · cases run with
    | nil => exact absurd rfl hne
    | cons a l =>
      have hm : a ∈ seg := by rw [hseg]; simp
      exact strip_ne_nil_of_mem hm (cjk_not_space (hall a (by simp)))

theorem findSegs_filter_id (t : Text) :
    (findSegs t).filter (fun s => !(strip s).isEmpty) = findSegs t := by
  apply List.filter_eq_self.mpr
  intro seg hs
  have hne := seg_strip_ne_nil ((findSegs_inventory t.length t le_rfl).1 seg hs)
  cases hse : (strip seg).isEmpty with
  | false => rfl
  | true => exact absurd (List.isEmpty_iff.mp hse) hne

/-! ## Tokens of the English branch -/

theorem PyWord_units {w : Text} (h : PyWord w) :
    ∃ u, IsWordRun u ∧ findUnits w = [u] := by
  rcases h with h | ⟨u, p, rfl, hu, hp⟩
  · exact ⟨w, h, findUnits_wordRun h⟩
  · refine ⟨u, hu, ?_⟩
    rw [findUnits_wordRun_ext hu (headSafe_single (classPunct_not_alnum p hp)),
      findUnits_skip (classPunct_not_cjk p hp) (classPunct_not_alnum p hp),
      findUnits_nil]

theorem PyWord_count {w : Text} (h : PyWord w) : (findUnits w).length = 1 := by
  obtain ⟨u, _, hu⟩ := PyWord_units h
  rw [hu]
  rfl

theorem unitsOf_wordRuns {l : List Text} (h : ∀ v ∈ l, IsWordRun v) :
    unitsOf l = l := by
  induction l with
  | nil => rfl
  | cons v l' ih =>
    rw [unitsOf_cons, findUnits_wordRun (h v (by simp)),
      ih (fun a ha => h a (by simp [ha]))]
    rfl

theorem unitsOf_len_one {g : List Text}
    (h : ∀ w ∈ g, (findUnits w).length = 1) :
    (unitsOf g).length = g.length := by
  induction g with
  | nil => rfl
  | cons w g' ih =>
    rw [unitsOf_cons, List.length_append, h w (by simp),
      ih (fun a ha => h a (by simp [ha])), List.length_cons]
    omega

theorem LatinSeg_tokens {seg : Text} {u : List Text} (h : LatinSeg seg u) :
    pySplitWs seg ≠ [] ∧ (∀ w ∈ pySplitWs seg, PyWord w) ∧
      unitsOf (pySplitWs seg) = u := by
  obtain ⟨ws, w, tp, hu, hruns, htp, hsp, hunits, _⟩ := h
  have hwlast : IsWordRun w := hruns w (by rw [hu]; simp)
  have hlastok : PyWord (w ++ tp) := by
    rcases htp with rfl | ⟨p, rfl, hp⟩
    · exact Or.inl (by rwa [List.append_nil])
    · exact Or.inr ⟨w, p, rfl, hwlast, hp⟩
  refine ⟨?_, ?_, ?_⟩
  · rw [hsp]; simp
  · intro v hv
    rw [hsp] at hv
    rcases List.mem_append.mp hv with hws | hlast
    · exact Or.inl (hruns v (by rw [hu]; exact List.mem_append.mpr (Or.inl hws)))
    · rw [List.mem_singleton] at hlast
      rw [hlast]
      exact hlastok
  · rw [hsp, unitsOf_append, unitsOf_wordRuns
      (fun v hv => hruns v (by rw [hu]; exact List.mem_append.mpr (Or.inl hv))),
      unitsOf_cons, unitsOf_nil, List.append_nil, hu]
    congr 1
    rcases htp with rfl | ⟨p, rfl, hp⟩
    · rw [List.append_nil, findUnits_wordRun hwlast]
    · rw [findUnits_wordRun_ext hwlast (headSafe_single (classPunct_not_alnum p hp)),
        findUnits_skip (classPunct_not_cjk p hp) (classPunct_not_alnum p hp),
        findUnits_nil]

theorem LatinSeg_head {seg : Text} {u : List Text} (h : LatinSeg seg u) :
    ∃ e, seg.head? = some e ∧ isAlnumC e = true := by
  obtain ⟨_, _, _, _, _, _, _, _, hh⟩ := h
  exact hh

theorem CJKSeg_head {seg : Text} (h : CJKSeg seg) :
    ∃ e, seg.head? = some e ∧ isCJK e = true := by
  obtain ⟨run, tp, rfl, hne, hcjk, _, _⟩ := h
  cases run with
  | nil => exact absurd rfl hne
  | cons a l => exact ⟨a, rfl, hcjk a (by simp)⟩

/-! ## The English branch accumulator -/

theorem engAux_spec (m : Int) (hm : 1 ≤ m) :
    ∀ toks cur, (cur.length : Int) ≤ m →
      ∃ groups : List (List Text), engAux m cur toks = groups.map joinSp ∧
        groups.flatten = cur ++ toks ∧
        ∀ g ∈ groups, g ≠ [] ∧ (g.length : Int) ≤ m := by
  intro toks
  induction toks with
  | nil =>
    intro cur hcur
    cases hce : cur.isEmpty with
    | true =>
      refine ⟨[], ?_, ?_, ?_⟩
      · simp only [engAux, hce]
        rfl
      · rw [List.isEmpty_iff.mp hce]
        rfl
      · intro g hg; cases hg
    | false =>
      refine ⟨[cur], ?_, ?_, ?_⟩
      · simp only [engAux, hce]
        rfl
      · simp
      · intro g hg
        rw [List.mem_singleton] at hg
        subst hg
        refine ⟨?_, hcur⟩
        intro h0
        rw [h0] at hce
        cases hce
  | cons w ws ih =>
    intro cur hcur
    by_cases hlt : (cur.length : Int) < m
    · obtain ⟨groups, h1, h2, h3⟩ := ih (cur ++ [w]) (by
        simp only [List.length_append, List.length_cons, List.length_nil]
        push_cast
        omega)
      refine ⟨groups, ?_, ?_, h3⟩
      · simp only [engAux, if_pos hlt]
        exact h1
      · rw [h2, List.append_assoc]
        rfl
    · obtain ⟨groups, h1, h2, h3⟩ := ih [w] (by
        simp only [List.length_cons, List.length_nil]
        push_cast
        omega)
      have hcne : cur ≠ [] := by
        intro h0
        rw [h0] at hlt
        simp only [List.length_nil, Nat.cast_zero] at hlt
        omega
      refine ⟨cur :: groups, ?_, ?_, ?_⟩
      · simp only [engAux, if_neg hlt, List.map_cons]
        rw [h1]
      · rw [List.flatten_cons, h2]
        rfl
      · intro g hg
        rcases List.mem_cons.mp hg with rfl | hg'
        · exact ⟨hcne, hcur⟩
        · exact h3 g hg'

theorem unitsOf_map_joinSp (groups : List (List Text)) :
    unitsOf (groups.map joinSp) = unitsOf groups.flatten := by
  induction groups with
  | nil => rfl
  | cons g gs ih =>
    rw [List.map_cons, unitsOf_cons, findUnits_joinSp, List.flatten_cons,
      unitsOf_append, ih]

theorem engChunks_spec {seg : Text} {u : List Text} (h : LatinSeg seg u)
    (m : Int) (hm : 1 ≤ m) :
    unitsOf (engChunks m seg) = findUnits seg ∧
    ∀ ch ∈ engChunks m seg, (count_units ch : Int) ≤ m ∧
      ∃ toks, toks ≠ [] ∧ (∀ w ∈ toks, PyWord w) ∧ ch = joinSp toks := by
  obtain ⟨hne, hpw, hunits⟩ := LatinSeg_tokens h
  obtain ⟨groups, hg1, hg2, hg3⟩ := engAux_spec m hm (pySplitWs seg) []
    (by simp; omega)
  rw [List.nil_append] at hg2
  have heq : engChunks m seg = groups.map joinSp := hg1
  constructor
  · rw [heq, unitsOf_map_joinSp, hg2, hunits, LatinSeg_units h]
  · intro ch hch
    rw [heq] at hch
    obtain ⟨g, hgmem, hg⟩ := List.mem_map.mp hch
    have hsub : ∀ v ∈ g, PyWord v := by
      intro v hv
      exact hpw v (hg2 ▸ List.mem_flatten.mpr ⟨g, hgmem, hv⟩)
    constructor
    · rw [← hg, count_joinSp, unitsOf_len_one
        (fun v hv => PyWord_count (hsub v hv))]
      exact_mod_cast le_trans (by exact_mod_cast le_rfl) ((hg3 g hgmem).2)
    · exact ⟨g, (hg3 g hgmem).1, hsub, hg.symm⟩

/-! ## The CJK branch windows -/

theorem cjk_chunk_units {run tp : Text} (hrun : ∀ c ∈ run, isCJK c = true)
    (htp : tp = [] ∨ ∃ q, tp = [q] ∧ q ∈ cjkPunct) :
    findUnits (run ++ tp) = run.map (fun c => [c]) := by
  rcases htp with rfl | ⟨q, rfl, hq⟩
  · rw [findUnits_cjkrun hrun, findUnits_nil, List.append_nil]
  · rw [findUnits_cjkrun hrun, findUnits_skip (cjkPunct_not_cjk q hq)
      (cjkPunct_not_alnum q hq), findUnits_nil, List.append_nil]

theorem cjk_chunk_count {run tp : Text} (hrun : ∀ c ∈ run, isCJK c = true)
    (htp : tp = [] ∨ ∃ q, tp = [q] ∧ q ∈ cjkPunct) :
    count_units (run ++ tp) = run.length := by
  rw [count_units_len, cjk_chunk_units hrun htp, List.length_map]

theorem cjkWindowsAux_spec (m : Nat) {p : Text}
    (hp : p = [] ∨ ∃ q, p = [q] ∧ q ∈ cjkPunct) :
    ∀ rest cur, cur.length < m → (∀ c ∈ cur, isCJK c = true) →
      (∀ c ∈ rest, isCJK c = true) →
      unitsOf (cjkWindowsAux m p cur rest) =
        (cur.reverse ++ rest).map (fun c => [c]) ∧
      ∀ ch ∈ cjkWindowsAux m p cur rest,
        count_units ch ≤ m ∧
        ∃ run tp, ch = run ++ tp ∧ run ≠ [] ∧ (∀ c ∈ run, isCJK c = true) ∧
          (tp = [] ∨ ∃ q, tp = [q] ∧ q ∈ cjkPunct) := by
  intro rest
  induction rest with
  | nil =>
    intro cur hlen hcur _
    cases hce : cur.isEmpty with
    | true =>
      have h0 : cur = [] := List.isEmpty_iff.mp hce
      subst h0
      refine ⟨rfl, ?_⟩
      intro ch hch
      exact absurd (hch : ch ∈ ([] : List Text)) (List.not_mem_nil ch)
    | false =>
      have hstep : cjkWindowsAux m p cur [] = [cur.reverse ++ p] := by
        simp only [cjkWindowsAux, hce]
        rfl
      have hrc : ∀ c ∈ cur.reverse, isCJK c = true := by
        intro c hc
        exact hcur c (List.mem_reverse.mp hc)
      have hrne : cur.reverse ≠ [] := by
        intro h0
        rw [List.reverse_eq_nil_iff] at h0
        rw [h0] at hce
        cases hce
      rw [hstep]
      constructor
      · rw [unitsOf_cons, unitsOf_nil, List.append_nil,
          cjk_chunk_units hrc hp, List.append_nil]
      · intro ch hch
        rw [List.mem_singleton] at hch
        subst hch
        refine ⟨?_, cur.reverse, p, rfl, hrne, hrc, hp⟩
        rw [cjk_chunk_count hrc hp, List.length_reverse]
        omega
  | cons c rest' ih =>
    intro cur hlen hcur hrest
    have hc : isCJK c = true := hrest c (by simp)
    have hrest' : ∀ a ∈ rest', isCJK a = true :=
      fun a ha => hrest a (by simp [ha])
    have hccur : ∀ a ∈ c :: cur, isCJK a = true := by
      intro a ha
      rcases List.mem_cons.mp ha with rfl | ha'
      · exact hc
      · exact hcur a ha'
    have hrcjk : ∀ a ∈ (c :: cur).reverse, isCJK a = true :=
      fun a ha => hccur a (List.mem_reverse.mp ha)
    have hrev : (c :: cur).reverse = cur.reverse ++ [c] := List.reverse_cons c cur
    by_cases hcm : cur.length + 1 = m
    · cases hre : rest'.isEmpty with
      | true =>
        have h0 : rest' = [] := List.isEmpty_iff.mp hre
        subst h0
        have hstep : cjkWindowsAux m p cur [c] = [(c :: cur).reverse ++ p] := by
          simp only [cjkWindowsAux, if_pos hcm, List.isEmpty_nil]
          rfl
        rw [hstep]
        constructor
        · rw [unitsOf_cons, unitsOf_nil, List.append_nil,
            cjk_chunk_units hrcjk hp, hrev]
        · intro ch hch
          rw [List.mem_singleton] at hch
          subst hch
          refine ⟨?_, (c :: cur).reverse, p, rfl, by simp, hrcjk, hp⟩
          rw [cjk_chunk_count hrcjk hp, List.length_reverse, List.length_cons]
          omega
      | false =>
        obtain ⟨ihu, ihch⟩ := ih [] (by simp only [List.length_nil]; omega)
          (by intro a ha; cases ha) hrest'
        have hstep : cjkWindowsAux m p cur (c :: rest') =
            (c :: cur).reverse :: cjkWindowsAux m p [] rest' := by
          simp only [cjkWindowsAux, if_pos hcm, hre]
          rfl
        rw [hstep]
        constructor
        · rw [unitsOf_cons, ihu]
          have hrun : findUnits ((c :: cur).reverse) =
              ((c :: cur).reverse).map (fun a => [a]) := by
            have hx := cjk_chunk_units hrcjk (Or.inl rfl)
            rwa [List.append_nil] at hx
          rw [hrun, hrev, List.reverse_nil, List.nil_append,
            ← List.map_append, List.append_assoc]
          rfl
        · intro ch hch
          rcases List.mem_cons.mp hch with rfl | hch'
          · refine ⟨?_, (c :: cur).reverse, [], (List.append_nil _).symm,
              by simp, hrcjk, Or.inl rfl⟩
            have hx := cjk_chunk_count hrcjk (Or.inl (rfl : ([] : Text) = []))
            rw [List.append_nil] at hx
            rw [hx, List.length_reverse, List.length_cons]
            omega
          · exact ihch ch hch'
    · obtain ⟨ihu, ihch⟩ := ih (c :: cur) (by
        simp only [List.length_cons]; omega) hccur hrest'
      have hstep : cjkWindowsAux m p cur (c :: rest') =
          cjkWindowsAux m p (c :: cur) rest' := by
        simp only [cjkWindowsAux, if_neg hcm]
      rw [hstep, ihu, hrev, List.append_assoc]
      exact ⟨rfl, ihch⟩

theorem cjkChunks_spec {seg : Text} (h : CJKSeg seg) (m : Int) (hm : 1 ≤ m) :
    ∃ out, cjkChunks m seg = .ok out ∧
      unitsOf out = findUnits seg ∧
      ∀ ch ∈ out, (count_units ch : Int) ≤ m ∧
        ∃ run tp, ch = run ++ tp ∧ run ≠ [] ∧ (∀ c ∈ run, isCJK c = true) ∧
          (tp = [] ∨ ∃ q, tp = [q] ∧ q ∈ cjkPunct) := by
  obtain ⟨run0, tp0, hseg, hne, hcjk, htp, hunits⟩ := h
  have hfil : seg.filter isCJK = run0 := by
    rw [hseg, List.filter_append, List.filter_eq_self.mpr hcjk]
    rcases htp with rfl | ⟨q, rfl, hq⟩
    · rw [List.filter_nil, List.append_nil]
    · rw [List.append_right_eq_self]
      simp [List.filter, cjkPunct_not_cjk q hq]
  have hlast : lastCjkPunct seg = tp0 := by
    rcases htp with rfl | ⟨q, rfl, hq⟩
    · rw [hseg, List.append_nil]
      unfold lastCjkPunct
      cases hgl : run0.getLast? with
      | none => rfl
      | some z =>
        have hz : isCJK z = true := hcjk z (mem_getLast? hgl)
        have hznp : z ∉ cjkPunct := by
          intro hzc
          rw [cjkPunct_not_cjk z hzc] at hz
          cases hz
        show (if z ∈ cjkPunct then [z] else []) = []
        rw [if_neg hznp]
    · rw [hseg]
      unfold lastCjkPunct
      rw [List.getLast?_concat]
      show (if q ∈ cjkPunct then [q] else []) = [q]
      rw [if_pos hq]
  have hmn : m ≠ 0 := by omega
  have hmneg : ¬ m < 0 := by omega
  have hm1 : 1 ≤ m.toNat := by omega
  obtain ⟨hu, hch⟩ := @cjkWindowsAux_spec m.toNat (lastCjkPunct seg)
    (by rw [hlast]; exact htp) (seg.filter isCJK) []
    (by simp only [List.length_nil]; omega)
    (by intro a ha; cases ha)
    (by intro a ha; exact List.of_mem_filter ha)
  refine ⟨cjkWindowsAux m.toNat (lastCjkPunct seg) [] (seg.filter isCJK),
    ?_, ?_, ?_⟩
  · unfold cjkChunks
    rw [if_neg hmn, if_neg hmneg]
  · rw [hu, hfil, List.reverse_nil, List.nil_append, hunits]
  · intro ch hch'
    obtain ⟨hcount, hshape⟩ := hch ch hch'
    refine ⟨?_, hshape⟩
    have : (m.toNat : Int) = m := by omega
    omega

/-! ## Assembling `split_mixed_text` -/

theorem splitSegs_spec (m : Int) (hm : 1 ≤ m) :
    ∀ segs, (∀ seg ∈ segs, (∃ u, LatinSeg seg u) ∨ CJKSeg seg) →
      ∃ out, splitSegs m segs = .ok out ∧
        unitsOf out = unitsOf segs ∧
        ∀ ch ∈ out, (count_units ch : Int) ≤ m ∧ MixedChunk ch := by
  intro segs
  induction segs with
  | nil =>
    intro _
    exact ⟨[], rfl, rfl, fun ch hch => absurd hch (List.not_mem_nil ch)⟩
  | cons seg rest ih =>
    intro hinv
    obtain ⟨out', hout', hu', hch'⟩ := ih (fun s hs => hinv s (by simp [hs]))
    rcases hinv seg (by simp) with ⟨u, hL⟩ | hC
    · obtain ⟨e, he, hea⟩ := LatinSeg_head hL
      have hnc : isCJK e = false := alnum_not_cjk hea
      obtain ⟨heu, hech⟩ := engChunks_spec hL m hm
      refine ⟨engChunks m seg ++ out', ?_, ?_, ?_⟩
      · have heq : splitSegs m (seg :: rest) =
            Except.bind (splitSegs m rest)
              (fun more => Except.ok (engChunks m seg ++ more)) := by
          simp only [splitSegs, he, hnc]
          rfl
        rw [heq, hout']
        rfl
      · rw [unitsOf_append, unitsOf_cons, hu', heu]
      · intro ch hch
        rcases List.mem_append.mp hch with h | h
        · obtain ⟨hcnt, toks, ht1, ht2, ht3⟩ := hech ch h
          exact ⟨hcnt, Or.inl ⟨toks, ht1, ht2, ht3⟩⟩
        · exact hch' ch h
    · obtain ⟨e, he, hec⟩ := CJKSeg_head hC
      obtain ⟨cout, hcout, hcu, hcch⟩ := cjkChunks_spec hC m hm
      refine ⟨cout ++ out', ?_, ?_, ?_⟩
      · have heq : splitSegs m (seg :: rest) =
            Except.bind (cjkChunks m seg)
              (fun first => Except.bind (splitSegs m rest)
                (fun more => Except.ok (first ++ more))) := by
          simp only [splitSegs, he, hec]
          rfl
        rw [heq, hcout, hout']
        rfl
      · rw [unitsOf_append, unitsOf_cons, hu', hcu]
      · intro ch hch
        rcases List.mem_append.mp hch with h | h
        · obtain ⟨hcnt, run, tp, h1, h2, h3, h4⟩ := hcch ch h
          exact ⟨hcnt, Or.inr ⟨run, tp, h1, h2, h3, h4⟩⟩
        · exact hch' ch h

theorem split_mixed_spec (t : Text) (m : Int) (hm : 1 ≤ m) :
    ∃ l, split_mixed_text t m = .ok l ∧ unitsOf l = findUnits t ∧
      ∀ ch ∈ l, (count_units ch : Int) ≤ m ∧ MixedChunk ch := by
  by_cases hst : (strip t).isEmpty
  · refine ⟨[], ?_, ?_, ?_⟩
    · simp only [split_mixed_text, if_pos hst]
    · have h0 : strip t = [] := List.isEmpty_iff.mp hst
      rw [unitsOf_nil, ← findUnits_strip t, h0, findUnits_nil]
    · intro ch hch
      cases hch
  · obtain ⟨out, hout, hu, hch⟩ := splitSegs_spec m hm (findSegs t)
      ((findSegs_inventory t.length t le_rfl).1)
    refine ⟨out, ?_, ?_, hch⟩
    · simp only [split_mixed_text, if_neg hst, findSegs_filter_id]
      exact hout
    · rw [hu, ← (findSegs_inventory t.length t le_rfl).2]

/-! ## Character content of the fallback chunks -/

theorem join_not_cjk {c : Char} (h : isJoin c = true) : isCJK c = false := by
  simp only [isJoin, Bool.or_eq_true, decide_eq_true_eq] at h
  rcases h with rfl | rfl <;> decide

theorem mem_joinSp {c : Char} :
    ∀ {g : List Text}, c ∈ joinSp g → c = ' ' ∨ ∃ w ∈ g, c ∈ w := by
  intro g
  induction g with
  | nil => intro hc; cases hc
  | cons w l ih =>
    cases l with
    | nil =>
      intro hc
      exact Or.inr ⟨w, by simp, hc⟩
    | cons x ws =>
      intro hc
      have hc' : c ∈ w ++ ' ' :: joinSp (x :: ws) := hc
      rcases List.mem_append.mp hc' with h | h
      · exact Or.inr ⟨w, by simp, h⟩
      · rcases List.mem_cons.mp h with rfl | h2
        · exact Or.inl rfl
        · rcases ih h2 with h3 | ⟨v, hv, hcv⟩
          · exact Or.inl h3
          · exact Or.inr ⟨v, by simp [hv], hcv⟩

theorem PyWord_chars {w : Text} (h : PyWord w) :
    ∀ c ∈ w, isAlnumC c = true ∨ c = '.' ∨ isJoin c = true ∨ c ∈ classPunct := by
  rcases h with h | ⟨u, p, rfl, hu, hp⟩
  · intro c hc
    rcases wordRun_chars h c hc with h1 | h2 | h3
    · exact Or.inl h1
    · exact Or.inr (Or.inl h2)
    · exact Or.inr (Or.inr (Or.inl h3))
  · intro c hc
    rcases List.mem_append.mp hc with h1 | h2
    · rcases wordRun_chars hu c h1 with h3 | h4 | h5
      · exact Or.inl h3
      · exact Or.inr (Or.inl h4)
      · exact Or.inr (Or.inr (Or.inl h5))
    · rw [List.mem_singleton] at h2
      subst h2
      exact Or.inr (Or.inr (Or.inr hp))

theorem classPunct_allowed : ∀ p ∈ classPunct, allowedChar p = true := by decide

theorem cjkPunct_allowed : ∀ p ∈ cjkPunct, allowedChar p = true := by decide

theorem MixedChunk_no_mixing {ch : Text} (h : MixedChunk ch) :
    (∀ c ∈ ch, isCJK c = false) ∨ (∀ c ∈ ch, isAlnumC c = false) := by
  rcases h with ⟨toks, _, hpw, rfl⟩ | ⟨run, tp, rfl, _, hcjk, htp⟩
  · left
    intro c hc
    rcases mem_joinSp hc with rfl | ⟨w, hw, hcw⟩
    · decide
    · rcases PyWord_chars (hpw w hw) c hcw with h1 | h2 | h3 | h4
      · exact alnum_not_cjk h1
      · subst h2; decide
      · exact join_not_cjk h3
      · exact classPunct_not_cjk c h4
  · right
    intro c hc
    rcases List.mem_append.mp hc with h1 | h2
    · exact cjk_not_alnum (hcjk c h1)
    · rcases htp with rfl | ⟨q, rfl, hq⟩
      · cases h2
      · rw [List.mem_singleton] at h2
        subst h2
        exact cjkPunct_not_alnum c hq

theorem MixedChunk_allowed {ch : Text} (h : MixedChunk ch) :
    ∀ c ∈ ch, allowedChar c = true := by
  rcases h with ⟨toks, _, hpw, rfl⟩ | ⟨run, tp, rfl, _, hcjk, htp⟩
  · intro c hc
    rcases mem_joinSp hc with rfl | ⟨w, hw, hcw⟩
    · decide
    · rcases PyWord_chars (hpw w hw) c hcw with h1 | h2 | h3 | h4
      · simp [allowedChar, h1]
      · subst h2; decide
      · simp [allowedChar, h3]
      · exact classPunct_allowed c h4
  · intro c hc
    rcases List.mem_append.mp hc with h1 | h2
    · simp [allowedChar, hcjk c h1]
    · rcases htp with rfl | ⟨q, rfl, hq⟩
      · cases h2
      · rw [List.mem_singleton] at h2
        subst h2
        exact cjkPunct_allowed c hq

/-! ## Claim C8: script separation in the fallback -/

/-- C8: for every text and every budget of at least one unit, no chunk
yielded by the fallback `split_mixed_text` contains both a CJK ideograph
and a Latin letter or digit: each chunk is free of CJK ideographs or
free of alphanumerics. -/
theorem split_mixed_no_mixing (t : Text) (maxU : Int) (hm : 1 ≤ maxU)
    (l : List Text) (h : split_mixed_text t maxU = .ok l) :
    ∀ ch ∈ l, (∀ c ∈ ch, isCJK c = false) ∨ (∀ c ∈ ch, isAlnumC c = false) := by
  obtain ⟨l₀, h₀, _, hch⟩ := split_mixed_spec t maxU hm
  rw [h₀] at h
  injection h with h
  subst h
  exact fun ch hc => MixedChunk_no_mixing (hch ch hc).2

/-- Witness for C8 at a concrete mixed-script input: the CJK chunk the
fallback yields between the Latin ones is free of alphanumerics (or of
ideographs). -/
theorem split_mixed_no_mixing_witness :
    (∀ c ∈ T "你好", isCJK c = false) ∨ (∀ c ∈ T "你好", isAlnumC c = false) :=
  split_mixed_no_mixing (T "Hello World 你好世界") 2 (by decide)
    [T "Hello World", T "你好", T "世界"] rfl (T "你好")
    (List.mem_cons_of_mem _ (List.mem_cons_self _ _))

/-! ## Claim C10: character inventory of the fallback chunks -/

/-- C10: for every text and every budget of at least one unit, every
chunk yielded by `split_mixed_text` consists only of Latin letters and
digits, whitespace, hyphen/apostrophe/period, CJK ideographs, and
punctuation marks of the trailing class; moreover every chunk is either
space-joined word runs, each with at most one trailing punctuation mark,
or a CJK run with at most one trailing CJK punctuation mark.  Any other
input character never appears in any output chunk. -/
theorem split_mixed_chunk_chars (t : Text) (maxU : Int) (hm : 1 ≤ maxU)
    (l : List Text) (h : split_mixed_text t maxU = .ok l) :
    ∀ ch ∈ l, (∀ c ∈ ch, allowedChar c = true) ∧ MixedChunk ch := by
  obtain ⟨l₀, h₀, _, hch⟩ := split_mixed_spec t maxU hm
  rw [h₀] at h
  injection h with h
  subst h
  exact fun ch hc => ⟨MixedChunk_allowed (hch ch hc).2, (hch ch hc).2⟩

/-- Witness for C10 at an input whose accented letters and stray
half-width exclamation mark are dropped: the middle yielded chunk
carries only allowed characters and has the chunk shape. -/
theorem split_mixed_chunk_chars_witness :
    (∀ c ∈ T "ve caf", allowedChar c = true) ∧ MixedChunk (T "ve caf") :=
  split_mixed_chunk_chars (T "naïve café 你好!") 2 (by decide)
    [T "na", T "ve caf", T "你好"] rfl (T "ve caf")
    (List.mem_cons_of_mem _ (List.mem_cons_self _ _))

/-! ## Units through the literal splitter -/

theorem listPfx_decomp : ∀ sep l : Text, listPfx sep l = true →
    l = sep ++ l.drop sep.length := by
  intro sep
  induction sep with
  | nil => intro l _; rfl
  | cons c cs ih =>
    intro l h
    cases l with
    | nil => cases h
    | cons d ds =>
      simp only [listPfx, Bool.and_eq_true, decide_eq_true_eq] at h
      obtain ⟨h1, h2⟩ := h
      rw [h1]
      simp only [List.length_cons, List.drop_succ_cons, List.cons_append]
      rw [← ih ds h2]

theorem splitFirst_decomp (sep : Text) : ∀ t q, splitFirst sep t = some q →
    t = q.1 ++ sep ++ q.2 := by
  intro t
  induction t with
  | nil => intro q h; cases h
  | cons c rest ih =>
    intro q h
    by_cases hp : listPfx sep (c :: rest) = true
    · simp only [splitFirst, if_pos hp] at h
      injection h with h
      subst h
      have hd := listPfx_decomp sep (c :: rest) hp
      simpa using hd
    · simp only [splitFirst, if_neg hp] at h
      cases hsf : splitFirst sep rest with
      | none => rw [hsf] at h; cases h
      | some q0 =>
        rw [hsf] at h
        injection h with h
        subst h
        show c :: rest = (c :: q0.1) ++ sep ++ q0.2
        rw [List.cons_append, List.cons_append, ← ih q0 hsf]

theorem sepOK_headSafe {sep : Text} (h : sepOK sep) (z : Text) :
    headSafe (sep ++ z) = true := by
  obtain ⟨hne, hall⟩ := h
  cases sep with
  | nil => exact absurd rfl hne
  | cons c cs => exact break_headSafe (hall c (by simp)) (cs ++ z)

theorem sepOK_headSafe0 {sep : Text} (h : sepOK sep) : headSafe sep = true := by
  obtain ⟨hne, hall⟩ := h
  cases sep with
  | nil => exact absurd rfl hne
  | cons c cs => exact break_headSafe (hall c (by simp)) cs

theorem sepOK_units {sep : Text} (h : sepOK sep) (z : Text) :
    findUnits (sep ++ z) = findUnits z := findUnits_break_lead h.2 z

theorem sepOK_units0 {sep : Text} (h : sepOK sep) : findUnits sep = [] := by
  have hu := sepOK_units h []
  rwa [List.append_nil, findUnits_nil] at hu

theorem splitOnSepF_units {sep : Text} (hsep : sepOK sep) :
    ∀ b t, unitsOf (splitOnSepF b sep t) = findUnits t := by
  intro b
  induction b with
  | zero =>
    intro t
    show unitsOf [t] = _
    rw [unitsOf_cons, unitsOf_nil, List.append_nil]
  | succ b ih =>
    intro t
    cases hsf : splitFirst sep t with
    | none =>
      simp only [splitOnSepF, hsf]
      rw [unitsOf_cons, unitsOf_nil, List.append_nil]
    | some q =>
      simp only [splitOnSepF, hsf]
      rw [unitsOf_cons, ih q.2, splitFirst_decomp sep t q hsf,
        List.append_assoc, findUnits_append_of_headSafe (sepOK_headSafe hsep q.2),
        sepOK_units hsep q.2]

theorem splitOnSepF_ne_nil (sep : Text) : ∀ b t, splitOnSepF b sep t ≠ [] := by
  intro b t
  cases b with
  | zero => simp [splitOnSepF]
  | succ b =>
    cases hsf : splitFirst sep t with
    | none => simp [splitOnSepF, hsf]
    | some q => simp [splitOnSepF, hsf]

theorem splitStr_units_aux {sep : Text} (hsep : sepOK sep) :
    ∀ parts : List Text, ∀ a : Text,
      unitsOf (((a :: parts).dropLast.filterMap fun p =>
          if (strip p).isEmpty then none else some (strip p ++ sep)) ++
        [strip ((a :: parts).getLastD [])]) = unitsOf (a :: parts) := by
  intro parts
  induction parts with
  | nil =>
    intro a
    show unitsOf ([] ++ [strip a]) = _
    rw [List.nil_append, unitsOf_cons, unitsOf_nil, List.append_nil,
      findUnits_strip, unitsOf_cons, unitsOf_nil, List.append_nil]
  | cons b l ih =>
    intro a
    have hdl : (a :: b :: l).dropLast = a :: (b :: l).dropLast :=
      List.dropLast_cons₂
    have hgl : (a :: b :: l).getLastD [] = (b :: l).getLastD [] := rfl
    rw [hdl, hgl]
    cases hae : (strip a).isEmpty with
    | true =>
      have hfa : findUnits a = [] := by
        rw [← findUnits_strip a, List.isEmpty_iff.mp hae]
        rfl
      rw [List.filterMap_cons_none (by simp [hae]), ih b]
      show unitsOf (b :: l) = unitsOf (a :: b :: l)
      rw [unitsOf_cons a (b :: l), hfa, List.nil_append]
    | false =>
      have hfs : (fun p => if (strip p).isEmpty then none
          else some (strip p ++ sep)) a = some (strip a ++ sep) := by
        simp [hae]
      rw [@List.filterMap_cons_some Text Text
          (fun p => if (strip p).isEmpty then none else some (strip p ++ sep))
          a ((b :: l).dropLast) (strip a ++ sep) hfs,
        List.cons_append, unitsOf_cons (strip a ++ sep) _, ih b,
        unitsOf_cons a (b :: l), findUnits_append_of_headSafe
          (sepOK_headSafe0 hsep), sepOK_units0 hsep, List.append_nil,
        findUnits_strip]

theorem splitStr_units {sep : Text} (hsep : sepOK sep) (t : Text) :
    unitsOf (splitStr sep t) = findUnits t := by
  cases hparts : splitOnSep sep t with
  | nil => exact absurd hparts (splitOnSepF_ne_nil sep (t.length + 1) t)
  | cons a rest =>
    show unitsOf (((splitOnSep sep t).dropLast.filterMap fun p =>
        if (strip p).isEmpty then none else some (strip p ++ sep)) ++
      [strip ((splitOnSep sep t).getLastD [])]) = _
    rw [hparts, splitStr_units_aux hsep rest a, ← hparts]
    exact splitOnSepF_units hsep (t.length + 1) t

/-! ## Units through the sentence splitter -/

theorem sentBoundary_wall {prev : Option Char} {c : Char} {nx : Option Char}
    (h : sentBoundary prev c nx = true) :
    isAlnumC c = false ∧ isJoin c = false ∧
      (c = '.' → ∀ d, nx = some d → isDigitC d = false) := by
  have hcs : c = '?' ∨ c = '？' ∨ c = '!' ∨ c = '！' ∨ c = '.' ∨ c = '。' := by
    by_contra hno
    push_neg at hno
    obtain ⟨h1, h2, h3, h4, h5, h6⟩ := hno
    have hA : ¬ ((c = '?' || c = '？' || c = '!' || c = '！') = true) := by
      simp [h1, h2, h3, h4]
    have hB : ¬ ((c = '.' || c = '。') = true) := by
      simp [h5, h6]
    unfold sentBoundary at h
    rw [if_neg hA, if_neg hB] at h
    cases h
  rcases hcs with rfl | rfl | rfl | rfl | rfl | rfl
  · exact ⟨by decide, by decide, fun h' => absurd h' (by decide)⟩
  · exact ⟨by decide, by decide, fun h' => absurd h' (by decide)⟩
  · exact ⟨by decide, by decide, fun h' => absurd h' (by decide)⟩
  · exact ⟨by decide, by decide, fun h' => absurd h' (by decide)⟩
  · refine ⟨by decide, by decide, ?_⟩
    intro _ d hnd
    subst hnd
    unfold sentBoundary at h
    simp at h
    exact h.2
  · exact ⟨by decide, by decide, fun h' => absurd h' (by decide)⟩

theorem sentSegsAux_units :
    ∀ t (prev : Option Char) (acc : Text),
      unitsOf (sentSegsAux prev acc t) = findUnits (acc.reverse ++ t) := by
  intro t
  induction t with
  | nil =>
    intro prev acc
    cases hae : acc.isEmpty with
    | true =>
      have h0 : acc = [] := List.isEmpty_iff.mp hae
      subst h0
      rfl
    | false =>
      have hstep : sentSegsAux prev acc [] = [acc.reverse] := by
        simp only [sentSegsAux, hae]
        rfl
      rw [hstep, unitsOf_cons, unitsOf_nil, List.append_nil, List.append_nil]
  | cons c rest ih =>
    intro prev acc
    cases hb : sentBoundary prev c rest.head? with
    | true =>
      have hstep : sentSegsAux prev acc (c :: rest) =
          (c :: acc).reverse :: sentSegsAux (some c) [] rest := by
        simp only [sentSegsAux, hb]
        rfl
      obtain ⟨ha1, ha2, ha3⟩ := sentBoundary_wall hb
      have hlast : (acc.reverse ++ [c]).getLast? = some c :=
        List.getLast?_concat _
      have hwall := findUnits_wall ha1 ha2 ha3
        (acc.reverse ++ [c]).length (acc.reverse ++ [c]) le_rfl hlast
      rw [hstep, unitsOf_cons, ih (some c) [], List.reverse_nil,
        List.nil_append, List.reverse_cons]
      conv_rhs => rw [List.append_cons]
      rw [hwall]
    | false =>
      have hstep : sentSegsAux prev acc (c :: rest) =
          sentSegsAux (some c) (c :: acc) rest := by
        simp only [sentSegsAux, hb]
        rfl
      rw [hstep, ih (some c) (c :: acc), List.reverse_cons, List.append_assoc]
      rfl

theorem strip_filter_units (l : List Text) :
    unitsOf ((l.map strip).filter (fun s => !s.isEmpty)) = unitsOf l := by
  induction l with
  | nil => rfl
  | cons p l' ih =>
    rw [List.map_cons, List.filter_cons]
    cases hpe : (strip p).isEmpty with
    | true =>
      have hfp : findUnits p = [] := by
        rw [← findUnits_strip p, List.isEmpty_iff.mp hpe]
        rfl
      simp only [hpe, Bool.not_true, Bool.false_eq_true, if_false]
      rw [ih]
      show unitsOf l' = unitsOf (p :: l')
      rw [unitsOf_cons p l', hfp, List.nil_append]
    | false =>
      simp only [hpe, Bool.not_false, if_true]
      rw [unitsOf_cons (strip p) _, ih, findUnits_strip,
        unitsOf_cons p l']

theorem sentSplit_units (t : Text) : unitsOf (sentSplit t) = findUnits t := by
  unfold sentSplit
  rw [strip_filter_units, sentSegsAux_units t none [], List.reverse_nil,
    List.nil_append]

theorem split_by_punct_units {p : Punct} (hp : PunctOK p) (t : Text) :
    unitsOf (split_by_punct p t) = findUnits t := by
  cases p with
  | sentence => exact sentSplit_units t
  | lit sep => exact splitStr_units hp t

theorem flatMap_punct_units {p : Punct} (hp : PunctOK p) (parts : List Text) :
    unitsOf (parts.flatMap (split_by_punct p)) = unitsOf parts := by
  induction parts with
  | nil => rfl
  | cons a l ih =>
    rw [List.flatMap_cons, unitsOf_append, split_by_punct_units hp, ih,
      unitsOf_cons a l]

theorem foldl_split_units : ∀ level : List Punct, (∀ p ∈ level, PunctOK p) →
    ∀ parts, unitsOf (level.foldl
      (fun parts p => parts.flatMap (split_by_punct p)) parts) =
      unitsOf parts := by
  intro level
  induction level with
  | nil => intro _ parts; rfl
  | cons p lvl ih =>
    intro hl parts
    rw [List.foldl_cons, ih (fun q hq => hl q (by simp [hq])),
      flatMap_punct_units (hl p (by simp))]

theorem applyLevel_units {level : List Punct} (hl : ∀ p ∈ level, PunctOK p)
    (t : Text) : unitsOf (applyLevel level t) = findUnits t := by
  unfold applyLevel
  rw [foldl_split_units level hl [t], unitsOf_cons, unitsOf_nil,
    List.append_nil]

/-! ## Units through the merge engine -/

theorem filter_strip_units (l : List Text) :
    unitsOf (l.filter fun s => !(strip s).isEmpty) = unitsOf l := by
  induction l with
  | nil => rfl
  | cons a l' ih =>
    rw [List.filter_cons]
    cases hae : (strip a).isEmpty with
    | true =>
      have hfa : findUnits a = [] := by
        rw [← findUnits_strip a, List.isEmpty_iff.mp hae]
        rfl
      simp only [hae, Bool.not_true, Bool.false_eq_true, if_false]
      rw [ih]
      show unitsOf l' = unitsOf (a :: l')
      rw [unitsOf_cons a l', hfa, List.nil_append]
    | false =>
      simp only [hae, Bool.not_false, if_true]
      rw [unitsOf_cons a (List.filter _ l'), ih, unitsOf_cons a l']

theorem subsplitStep_units {p : Punct} (hp : PunctOK p) (m : Int) :
    ∀ parts, unitsOf (subsplitStep m parts p) = unitsOf parts := by
  intro parts
  induction parts with
  | nil => rfl
  | cons a l ih =>
    unfold subsplitStep at ih ⊢
    rw [List.flatMap_cons, unitsOf_append, ih, unitsOf_cons a l]
    congr 1
    by_cases hc : (count_units a : Int) > m
    · rw [if_pos hc, filter_strip_units, split_by_punct_units hp]
    · rw [if_neg hc, unitsOf_cons, unitsOf_nil, List.append_nil]

theorem allPuncts_ok : ∀ p ∈ allPuncts, PunctOK p := by
  intro p hp
  simp only [allPuncts, List.mem_cons, List.not_mem_nil, or_false] at hp
  rcases hp with rfl | rfl | rfl | rfl | rfl | rfl | rfl
  · trivial
  · exact ⟨by simp, by decide⟩
  · exact ⟨by simp, by decide⟩
  · exact ⟨by simp, by decide⟩
  · exact ⟨by simp, by decide⟩
  · exact ⟨by simp, by decide⟩
  · exact ⟨by simp, by decide⟩

theorem oversizedSubsplits_units (m : Int) (t : Text) :
    unitsOf (oversizedSubsplits m t) = findUnits t := by
  unfold oversizedSubsplits
  have hgen : ∀ ps : List Punct, (∀ p ∈ ps, PunctOK p) →
      ∀ parts, unitsOf (ps.foldl (subsplitStep m) parts) = unitsOf parts := by
    intro ps
    induction ps with
    | nil => intro _ parts; rfl
    | cons p ps' ih =>
      intro hps parts
      rw [List.foldl_cons, ih (fun q hq => hps q (by simp [hq])),
        subsplitStep_units (hps p (by simp)) m parts]
  rw [hgen allPuncts allPuncts_ok [t], unitsOf_cons, unitsOf_nil,
    List.append_nil]

theorem unitsOf_flush (cur : List Text) :
    unitsOf (if cur.isEmpty then [] else [joinSp cur]) = unitsOf cur := by
  cases hce : cur.isEmpty with
  | true =>
    have h0 : cur = [] := List.isEmpty_iff.mp hce
    subst h0
    rfl
  | false =>
    show unitsOf [joinSp cur] = unitsOf cur
    rw [unitsOf_cons, unitsOf_nil, List.append_nil, findUnits_joinSp]

theorem combineAux_spec (m : Int) (hm : 1 ≤ m) :
    ∀ input cur curU, ∃ out, combineAux m cur curU input = .ok out ∧
      unitsOf out = unitsOf cur ++ unitsOf input := by
  intro input
  induction input with
  | nil =>
    intro cur curU
    refine ⟨if cur.isEmpty then [] else [joinSp cur], rfl, ?_⟩
    rw [unitsOf_flush, unitsOf_nil, List.append_nil]
  | cons s rest ih =>
    intro cur curU
    by_cases hbig : (count_units s : Int) > m
    · obtain ⟨mid, hmid, hmidu, _⟩ := split_mixed_spec s m hm
      obtain ⟨post, hpost, hpostu⟩ := ih [] 0
      refine ⟨(if cur.isEmpty then [] else [joinSp cur]) ++ mid ++ post,
        ?_, ?_⟩
      · simp only [combineAux, if_pos hbig]
        rw [hmid, hpost]
        rfl
      · rw [List.append_assoc, unitsOf_append, unitsOf_append, unitsOf_flush,
          hmidu, hpostu, unitsOf_nil, List.nil_append, unitsOf_cons s rest]
    · by_cases hfit : (curU + count_units s : Int) ≤ m
      · obtain ⟨out, hout, houtu⟩ := ih (cur ++ [s]) (curU + count_units s)
        refine ⟨out, ?_, ?_⟩
        · simp only [combineAux, if_neg hbig, if_pos hfit]
          exact hout
        · rw [houtu, unitsOf_append, unitsOf_cons s rest, unitsOf_cons,
            unitsOf_nil, List.append_nil, List.append_assoc]
      · obtain ⟨post, hpost, hpostu⟩ := ih [s] (count_units s)
        refine ⟨(if cur.isEmpty then [] else [joinSp cur]) ++ post, ?_, ?_⟩
        · simp only [combineAux, if_neg hbig, if_neg hfit]
          rw [hpost]
          rfl
        · rw [unitsOf_append, unitsOf_flush, hpostu, unitsOf_cons s rest,
            unitsOf_cons, unitsOf_nil, List.append_nil]

theorem greedyCombine_conserve (m : Int) :
    ∀ rest cur,
      findUnits (greedyCombine m cur rest).1 ++
        unitsOf (greedyCombine m cur rest).2 =
        findUnits cur ++ unitsOf rest ∧
      (greedyCombine m cur rest).2.length ≤ rest.length := by
  intro rest
  induction rest with
  | nil => intro cur; exact ⟨rfl, le_rfl⟩
  | cons s rest' ih =>
    intro cur
    by_cases hfit : (count_units (cur ++ ' ' :: s) : Int) ≤ m
    · have hstep : greedyCombine m cur (s :: rest') =
          greedyCombine m (cur ++ ' ' :: s) rest' := by
        simp only [greedyCombine, if_pos hfit]
      obtain ⟨ihu, ihl⟩ := ih (cur ++ ' ' :: s)
      rw [hstep]
      refine ⟨?_, le_trans ihl (by simp)⟩
      rw [ihu, findUnits_join_space, unitsOf_cons s rest', List.append_assoc]
    · have hstep : greedyCombine m cur (s :: rest') = (cur, s :: rest') := by
        simp only [greedyCombine, if_neg hfit]
      rw [hstep]
      exact ⟨rfl, le_rfl⟩

theorem merge_splitsF_units (m : Int) (hm : 1 ≤ m) :
    ∀ b splits, splits.length ≤ b →
      ∃ out, merge_splitsF m b splits = .ok out ∧
        unitsOf out = unitsOf splits := by
  intro b
  induction b with
  | zero =>
    intro splits h
    have h0 : splits = [] := List.eq_nil_of_length_eq_zero (Nat.le_zero.mp h)
    subst h0
    exact ⟨[], rfl, rfl⟩
  | succ b ih =>
    intro splits h
    cases splits with
    | nil => exact ⟨[], rfl, rfl⟩
    | cons s rest =>
      simp only [List.length_cons] at h
      by_cases hbig : (count_units s : Int) > m
      · obtain ⟨mid, hmid, hmidu⟩ :=
          combineAux_spec m hm (oversizedSubsplits m s) [] 0
        obtain ⟨more, hmore, hmoreu⟩ := ih rest (by omega)
        refine ⟨mid ++ more, ?_, ?_⟩
        · simp only [merge_splitsF, if_pos hbig]
          rw [hmid, hmore]
          rfl
        · rw [unitsOf_append, hmidu, hmoreu, unitsOf_nil, List.nil_append,
            oversizedSubsplits_units, unitsOf_cons s rest]
      · obtain ⟨hgc, hgl⟩ := greedyCombine_conserve m rest s
        obtain ⟨more, hmore, hmoreu⟩ :=
          ih (greedyCombine m s rest).2 (by omega)
        refine ⟨(greedyCombine m s rest).1 :: more, ?_, ?_⟩
        · simp only [merge_splitsF, if_neg hbig]
          rw [hmore]
          rfl
        · rw [unitsOf_cons, hmoreu, hgc, unitsOf_cons s rest]

theorem merge_splits_units (m : Int) (hm : 1 ≤ m) (splits : List Text) :
    ∃ out, merge_splits m splits = .ok out ∧ unitsOf out = unitsOf splits :=
  merge_splitsF_units m hm splits.length splits le_rfl

/-! ## The tier cascade -/

theorem punct_levels_ok : ∀ level ∈ punct_levels, ∀ p ∈ level, PunctOK p := by
  intro level hl
  simp only [punct_levels, List.mem_cons, List.not_mem_nil, or_false] at hl
  rcases hl with rfl | rfl | rfl | rfl
  · intro p hp
    simp only [List.mem_cons, List.not_mem_nil, or_false] at hp
    subst hp
    exact ⟨by simp, by decide⟩
  · intro p hp
    simp only [List.mem_cons, List.not_mem_nil, or_false] at hp
    subst hp
    trivial
  · intro p hp
    simp only [List.mem_cons, List.not_mem_nil, or_false] at hp
    rcases hp with rfl | rfl | rfl | rfl
    · exact ⟨by simp, by decide⟩
    · exact ⟨by simp, by decide⟩
    · exact ⟨by simp, by decide⟩
    · exact ⟨by simp, by decide⟩
  · intro p hp
    simp only [List.mem_cons, List.not_mem_nil, or_false] at hp
    rcases hp with rfl | rfl
    · exact ⟨by simp, by decide⟩
    · exact ⟨by simp, by decide⟩

theorem tryLevels_spec (m : Int) (hm : 1 ≤ m) (text : Text) :
    ∀ levels, (∀ level ∈ levels, ∀ p ∈ level, PunctOK p) →
      ∃ out, tryLevels m text levels = .ok out ∧
        unitsOf out = findUnits text := by
  intro levels
  induction levels with
  | nil =>
    intro _
    obtain ⟨l, h1, h2, _⟩ := split_mixed_spec text m hm
    exact ⟨l, h1, h2⟩
  | cons level more ih =>
    intro hl
    obtain ⟨out', hout', houtu'⟩ := ih (fun lv hlv => hl lv (by simp [hlv]))
    by_cases hlen : (applyLevel level text).length > 1
    · obtain ⟨mg, hmg, hmgu⟩ := merge_splits_units m hm (applyLevel level text)
      by_cases hall : (mg.all fun c => decide ((count_units c : Int) ≤ m)) = true
      · refine ⟨mg, ?_, ?_⟩
        · simp only [tryLevels, if_pos hlen]
          rw [hmg]
          show (if (mg.all fun c => decide ((count_units c : Int) ≤ m)) = true
            then Except.ok mg else tryLevels m text more) = _
          rw [if_pos hall]
        · rw [hmgu, applyLevel_units (hl level (by simp)) text]
      · refine ⟨out', ?_, houtu'⟩
        simp only [tryLevels, if_pos hlen]
        rw [hmg]
        show (if (mg.all fun c => decide ((count_units c : Int) ≤ m)) = true
          then Except.ok mg else tryLevels m text more) = _
        rw [if_neg hall]
        exact hout'
    · refine ⟨out', ?_, houtu'⟩
      simp only [tryLevels, if_neg hlen]
      exact hout'

theorem tryLevels_budget (m : Int) (hm : 1 ≤ m) (text : Text) :
    ∀ levels l, tryLevels m text levels = .ok l →
      ∀ ch ∈ l, (count_units ch : Int) ≤ m := by
  intro levels
  induction levels with
  | nil =>
    intro l h
    obtain ⟨l₀, h₀, _, hch⟩ := split_mixed_spec text m hm
    rw [show tryLevels m text [] = split_mixed_text text m from rfl, h₀] at h
    injection h with h
    subst h
    exact fun ch hc => (hch ch hc).1
  | cons level more ih =>
    intro l h
    by_cases hlen : (applyLevel level text).length > 1
    · obtain ⟨mg, hmg, _⟩ := merge_splits_units m hm (applyLevel level text)
      simp only [tryLevels, if_pos hlen] at h
      rw [hmg] at h
      have h' : (if (mg.all fun c => decide ((count_units c : Int) ≤ m)) = true
          then Except.ok mg else tryLevels m text more) = Except.ok l := h
      by_cases hall : (mg.all fun c => decide ((count_units c : Int) ≤ m)) = true
      · rw [if_pos hall] at h'
        injection h' with h'
        subst h'
        intro ch hc
        have := List.all_eq_true.mp hall ch hc
        exact of_decide_eq_true this
      · rw [if_neg hall] at h'
        exact ih l h'
    · simp only [tryLevels, if_neg hlen] at h
      exact ih l h

/-! ## Claim C4 (amended): no failure for budgets of at least one unit -/

/-- C4 (amended half): for every text and every `maxUnits ≥ 1`,
`chunk_text` returns a result and never raises; there is no validation
of `maxUnits` anywhere (the counterexamples show the `maxUnits < 1`
behaviour). -/
theorem chunk_text_no_failure (t : Text) (maxU : Int) (hm : 1 ≤ maxU) :
    ∃ l, chunk_text t maxU = .ok l := by
  unfold chunk_text
  by_cases h1 : (strip t).isEmpty
  · rw [if_pos h1]
    exact ⟨[], rfl⟩
  · rw [if_neg h1]
    by_cases h2 : (count_units (strip t) : Int) ≤ maxU
    · rw [if_pos h2]
      exact ⟨[strip t], rfl⟩
    · rw [if_neg h2]
      obtain ⟨out, hout, _⟩ :=
        tryLevels_spec maxU hm (strip t) punct_levels punct_levels_ok
      exact ⟨out, hout⟩

/-- Witness for the amended C4 at a concrete input that needs the full
tier cascade. -/
theorem chunk_text_no_failure_witness :
    ∃ l, chunk_text (T "a b c, d e f") 3 = .ok l :=
  chunk_text_no_failure (T "a b c, d e f") 3 (by decide)

/-! ## Claim C1: the budget invariant -/

/-- C1: for every text and every `maxUnits ≥ 1`, every chunk yielded by
`chunk_text` has unit count at most `maxUnits`; in particular the
chunks of the hard fallback `split_mixed_text` obey the bound (they are
covered by the final tier case and by `split_mixed_spec`). -/
theorem chunk_text_budget (t : Text) (maxU : Int) (hm : 1 ≤ maxU)
    (l : List Text) (h : chunk_text t maxU = .ok l) :
    ∀ ch ∈ l, (count_units ch : Int) ≤ maxU := by
  unfold chunk_text at h
  by_cases h1 : (strip t).isEmpty
  · rw [if_pos h1] at h
    injection h with h
    subst h
    intro ch hc
    cases hc
  · rw [if_neg h1] at h
    by_cases h2 : (count_units (strip t) : Int) ≤ maxU
    · rw [if_pos h2] at h
      injection h with h
      subst h
      intro ch hc
      rw [List.mem_singleton] at hc
      subst hc
      exact h2
    · rw [if_neg h2] at h
      exact tryLevels_budget maxU hm (strip t) punct_levels l h

/-- Witness for C1 at a concrete comma-tier input: the first yielded
chunk fits the budget. -/
theorem chunk_text_budget_witness :
    (count_units (T "a b c,") : Int) ≤ 3 :=
  chunk_text_budget (T "a b c, d e f") 3 (by decide)
    [T "a b c,", T "d e f"] rfl (T "a b c,") (List.mem_cons_self _ _)

/-! ## Claim C2: order and unit preservation -/

/-- C2: for every text and every `maxUnits ≥ 1`, the chunks come in
source order: scanning the space-joined concatenation of the yielded
chunks produces exactly the unit sequence of the original text. -/
theorem chunk_text_order_units (t : Text) (maxU : Int) (hm : 1 ≤ maxU)
    (l : List Text) (h : chunk_text t maxU = .ok l) :
    findUnits (joinSp l) = findUnits t := by
  rw [findUnits_joinSp]
  unfold chunk_text at h
  by_cases h1 : (strip t).isEmpty
  · rw [if_pos h1] at h
    injection h with h
    subst h
    rw [unitsOf_nil, ← findUnits_strip t, List.isEmpty_iff.mp h1, findUnits_nil]
  · rw [if_neg h1] at h
    by_cases h2 : (count_units (strip t) : Int) ≤ maxU
    · rw [if_pos h2] at h
      injection h with h
      subst h
      rw [unitsOf_cons, unitsOf_nil, List.append_nil, findUnits_strip]
    · rw [if_neg h2] at h
      obtain ⟨out, hout, houtu⟩ :=
        tryLevels_spec maxU hm (strip t) punct_levels punct_levels_ok
      rw [hout] at h
      injection h with h
      subst h
      rw [houtu, findUnits_strip]

/-- Witness for C2 at a concrete mixed-script input. -/
theorem chunk_text_order_units_witness :
    findUnits (joinSp [T "Hello World", T "你好", T "世界"]) =
      findUnits (T "Hello World 你好世界") :=
  chunk_text_order_units (T "Hello World 你好世界") 2 (by decide)
    [T "Hello World", T "你好", T "世界"] rfl

/-! ## Claim C3 (amended): greedy packing of `merge_splits` -/

theorem greedyCombine_rest_mem (m : Int) :
    ∀ rest cur s, s ∈ (greedyCombine m cur rest).2 → s ∈ rest := by
  intro rest
  induction rest with
  | nil =>
    intro cur s h
    exact absurd (h : s ∈ ([] : List Text)) (List.not_mem_nil s)
  | cons a rest' ih =>
    intro cur s h
    by_cases hfit : (count_units (cur ++ ' ' :: a) : Int) ≤ m
    · have hstep : greedyCombine m cur (a :: rest') =
          greedyCombine m (cur ++ ' ' :: a) rest' := by
        simp only [greedyCombine, if_pos hfit]
      rw [hstep] at h
      exact List.mem_cons_of_mem a (ih (cur ++ ' ' :: a) s h)
    · have hstep : greedyCombine m cur (a :: rest') = (cur, a :: rest') := by
        simp only [greedyCombine, if_neg hfit]
      rw [hstep] at h
      exact h

theorem greedyCombine_count_ge (m : Int) :
    ∀ rest cur, count_units cur ≤ count_units (greedyCombine m cur rest).1 := by
  intro rest
  induction rest with
  | nil => intro cur; exact le_rfl
  | cons a rest' ih =>
    intro cur
    by_cases hfit : (count_units (cur ++ ' ' :: a) : Int) ≤ m
    · have hstep : greedyCombine m cur (a :: rest') =
          greedyCombine m (cur ++ ' ' :: a) rest' := by
        simp only [greedyCombine, if_pos hfit]
      rw [hstep]
      refine le_trans ?_ (ih (cur ++ ' ' :: a))
      rw [count_append_space]
      omega
    · have hstep : greedyCombine m cur (a :: rest') = (cur, a :: rest') := by
        simp only [greedyCombine, if_neg hfit]
      rw [hstep]

theorem greedyCombine_stop (m : Int) :
    ∀ rest cur s' rest'', (greedyCombine m cur rest).2 = s' :: rest'' →
      m < (count_units (greedyCombine m cur rest).1 : Int) + count_units s' := by
  intro rest
  induction rest with
  | nil =>
    intro cur s' rest'' h
    exact List.noConfusion (h : ([] : List Text) = s' :: rest'')
  | cons a rest' ih =>
    intro cur s' rest'' h
    by_cases hfit : (count_units (cur ++ ' ' :: a) : Int) ≤ m
    · have hstep : greedyCombine m cur (a :: rest') =
          greedyCombine m (cur ++ ' ' :: a) rest' := by
        simp only [greedyCombine, if_pos hfit]
      rw [hstep] at h ⊢
      exact ih (cur ++ ' ' :: a) s' rest'' h
    · have hstep : greedyCombine m cur (a :: rest') = (cur, a :: rest') := by
        simp only [greedyCombine, if_neg hfit]
      rw [hstep] at h ⊢
      injection h with h1 h2
      rw [← h1]
      show m < (count_units cur : Int) + count_units a
      have hcs := count_append_space cur a
      omega

theorem merge_splitsF_chain (m : Int) :
    ∀ b splits, splits.length ≤ b →
      (∀ s ∈ splits, (count_units s : Int) ≤ m) →
      ∃ out, merge_splitsF m b splits = .ok out ∧
        List.Chain' (fun a b => m < (count_units a : Int) + count_units b)
          out ∧
        (splits = [] → out = []) ∧
        ∀ s rest, splits = s :: rest →
          ∃ tl, out = (greedyCombine m s rest).1 :: tl := by
  intro b
  induction b with
  | zero =>
    intro splits h hall
    have h0 : splits = [] := List.eq_nil_of_length_eq_zero (Nat.le_zero.mp h)
    subst h0
    exact ⟨[], rfl, List.chain'_nil, fun _ => rfl, fun s rest h => by cases h⟩
  | succ b ih =>
    intro splits h hall
    cases splits with
    | nil =>
      exact ⟨[], rfl, List.chain'_nil, fun _ => rfl, fun s rest h => by cases h⟩
    | cons s rest =>
      simp only [List.length_cons] at h
      have hsle : (count_units s : Int) ≤ m := hall s (by simp)
      have hnbig : ¬ (count_units s : Int) > m := by omega
      obtain ⟨_, hgl⟩ := greedyCombine_conserve m rest s
      obtain ⟨more, hmore, hchain, hnil, hcons⟩ :=
        ih (greedyCombine m s rest).2 (by omega)
          (fun x hx => hall x
            (List.mem_cons_of_mem s (greedyCombine_rest_mem m rest s x hx)))
      refine ⟨(greedyCombine m s rest).1 :: more, ?_, ?_, ?_, ?_⟩
      · simp only [merge_splitsF, if_neg hnbig]
        rw [hmore]
        rfl
      · cases hr : (greedyCombine m s rest).2 with
        | nil =>
          rw [hnil hr]
          exact List.chain'_singleton _
        | cons s' rest'' =>
          obtain ⟨tl, htl⟩ := hcons s' rest'' hr
          rw [htl, List.chain'_cons]
          have hstop := greedyCombine_stop m rest s s' rest'' hr
          have hge := greedyCombine_count_ge m rest'' s'
          exact ⟨by omega, htl ▸ hchain⟩
      · intro h0
        cases h0
      · intro s0 rest0 heq
        injection heq with he1 he2
        subst he1
        subst he2
        exact ⟨more, rfl⟩

/-- C3 (amended): when every segment handed to the merge individually
fits the budget, `merge_splits` succeeds and no two consecutive output
chunks have combined unit count within the budget (exact fits are
packed, not split).  The counterexample shows the unrestricted claim
over `chunk_text` fails for chunks of the oversized-segment
fallback. -/
theorem merge_splits_greedy_packing (maxU : Int) (splits : List Text)
    (hall : ∀ s ∈ splits, (count_units s : Int) ≤ maxU) :
    ∃ l, merge_splits maxU splits = .ok l ∧
      List.Chain' (fun a b => maxU < (count_units a : Int) + count_units b)
        l := by
  obtain ⟨out, h1, h2, _, _⟩ :=
    merge_splitsF_chain maxU splits.length splits le_rfl hall
  exact ⟨out, h1, h2⟩

/-- Witness for the amended C3 at a concrete list of comma splits. -/
theorem merge_splits_greedy_packing_witness :
    ∃ l, merge_splits 2 [T "a,", T "b,", T "c d"] = .ok l ∧
      List.Chain'
        (fun a b => (2 : Int) < (count_units a : Int) + count_units b) l :=
  merge_splits_greedy_packing 2 [T "a,", T "b,", T "c d"] (by decide)

end Bookpurr
